import Mathlib

/-!
# smallsh: a shallow embedding of `smallsh.c`

Conventions of the embedding.

* A C string is a `List Char`: the characters that precede the terminating NUL.  Reading the
  index `strlen` of a string yields the NUL character, and `strlen` is `List.length`.
* C `int` values are `Int`.
* Loops over indices are functions with a fuel argument that is at least the number of
  iterations the loop can make; the theorems show the results they reach.
* Buffers and arrays have the capacities that the source declares: the 7 bytes of
  `smallshPidStr`, the `MAXCOMM` bytes of the line buffers, the `MAXARG` elements of `arguments`,
  the `MAXARG + 2` elements of `extendArgs` and the 2 elements of `redirection`.
* A read or write that leaves the buffer, array or string it belongs to (a string longer than
  its buffer, a store at an index outside the array, an index that wraps below zero, a `NULL`
  token) makes the function return a `Fault`: C defines no result there.
* Calls into the operating system (`getpid`, `waitpid`) and the reads of the volatile `fgOnly`
  are explicit parameters; output is the list of texts printed, in order.
-/

namespace Smallsh

/-! ## Constants and libc helpers -/

/-- The NUL character that terminates a C string. -/
def NUL : Char := Char.ofNat 0

/-- The constant `MAXCOMM` of the source. -/
def MAXCOMM : Nat := 2048

/-- The constant `MAXARG` of the source. -/
def MAXARG : Nat := 512

/-- Read `s[i]` of a C string whose contents are `s`; index `strlen s` is the terminator. -/
def charAt (s : List Char) (i : Nat) : Char := s.getD i NUL

/-- The digit character of a number below ten. -/
def digitChar (d : Nat) : Char := Char.ofNat (48 + d)

/-- Decimal digits of a natural number, most significant first (fuel bounds the number of digits). -/
def natDigits : Nat → Nat → List Char
  | 0, _ => []
  | fuel + 1, n =>
    if n < 10 then [digitChar n] else natDigits fuel (n / 10) ++ [digitChar (n % 10)]

/-- What `printf("%d", n)` prints for a non-negative `n`. -/
def fmtNat (n : Nat) : List Char := natDigits (n + 1) n

/-- What `printf("%d", n)` and `sprintf(buf, "%d", n)` produce for a C `int`. -/
def fmtInt : Int → List Char
  | Int.ofNat n => fmtNat n
  | Int.negSucc n => '-' :: fmtNat (n + 1)

/-! ## Undefined behaviour -/

/-- Points at which `varExpansion`, `processComm` or `procRedirect` read or write outside the
buffer, array or string concerned, so that C defines no result. -/
inductive Fault where
  /-- The call `sprintf(smallshPidStr, "%d", smallshPid)` writes more than the 7 bytes of
  `smallshPidStr` (a pid string of more than 6 characters and its terminator). -/
  | pidBufferOverflow
  /-- A `strcat` makes the string in `tempPlaceholder` longer than the `MAXCOMM` bytes of the
  buffer can hold with its terminator. -/
  | bufferOverflow
  /-- The read `commandLine[strlen - 2]` or `commandLine[strlen - 3]` with an index that wraps
  below 0. -/
  | indexBeforeLine
  /-- The call of `strtok_r` returned `NULL` and the result is dereferenced. -/
  | nullToken
  /-- The write `token[1] = ' '` replaced the terminator that ends a full line buffer, so that
  the `strlen(token)` that follows reads past the buffer. -/
  | terminatorOverwritten
  /-- The store `arguments[index] = ...` with an index outside `arguments[MAXARG]`. -/
  | argumentsStore (index : Nat)
  /-- The store `extendArgs[index] = ...` with an index outside `extendArgs[MAXARG + 2]`. -/
  | extendArgsStore (index : Nat)
  /-- The store `redirection[index] = ...` of the given string with an index outside
  `redirection[2]`. -/
  | redirectionStore (index : Nat) (stored : List Char)
  deriving DecidableEq, Repr

/-! ## `varExpansion` (source lines 240-283) -/

/-- The size of the array `smallshPidStr` declared at line 244. -/
def pidStrSize : Nat := 7

/-- The `for` loop of `varExpansion`.  `cl` is `commandLine`, `temp` is `tempPlaceholder`,
`i` and `j` are the two indices; `strlen(commandLine)+1` is evaluated at every test.
In the `else` branch `commandLine[j]` is appended through the one-character string
`nextChar`; `j < strlen` holds there, so that character is never the terminator.
`tempPlaceholder` has `MAXCOMM` bytes: a `strcat` whose result does not leave room for the
terminator writes past it. -/
def varExpansionLoop (smallshPidStr : List Char) :
    Nat → List Char → List Char → Nat → Nat → Except Fault (List Char)
  | 0, _, temp, _, _ => Except.ok temp
  | fuel + 1, cl, temp, i, j =>
    if i < cl.length + 1 then
      if charAt cl i = '$' ∧ charAt cl j = '$' then
        if MAXCOMM ≤ (temp ++ smallshPidStr).length then Except.error Fault.bufferOverflow
        else
          varExpansionLoop smallshPidStr fuel ((cl.set i '#').set j '#')
            (temp ++ smallshPidStr) (i + 1 + 1) (j + 1 + 1)
      else
        if MAXCOMM ≤ (temp ++ [charAt cl j]).length then Except.error Fault.bufferOverflow
        else
          varExpansionLoop smallshPidStr fuel cl (temp ++ [charAt cl j]) (i + 1) (j + 1)
    else Except.ok temp

/-- The function `varExpansion`: `smallshPid` is the value returned by `getpid()`, the result
is the content of `commandLine` after the final `strcpy` (the buffer of `commandLine` has
`MAXCOMM` bytes as well, so a string that fits `tempPlaceholder` fits it).  The `sprintf` of
line 245 writes the pid string and its terminator into `smallshPidStr`, whatever the line. -/
def varExpansion (smallshPid : Int) (commandLine : List Char) : Except Fault (List Char) :=
  if pidStrSize < (fmtInt smallshPid).length + 1 then Except.error Fault.pidBufferOverflow
  else varExpansionLoop (fmtInt smallshPid) (commandLine.length + 1) commandLine [] 1 0

/-- The expansion as the specification words it: one left-to-right pass that replaces each
non-overlapping `$$` by the pid string and copies every other character. -/
def expandSpec (pidStr : List Char) : List Char → List Char
  | '$' :: '$' :: rest => pidStr ++ expandSpec pidStr rest
  | c :: rest => c :: expandSpec pidStr rest
  | [] => []

/-- Whether the two-character sequence `$$` occurs in a line. -/
def hasDollarPair : List Char → Bool
  | '$' :: '$' :: _ => true
  | _ :: rest => hasDollarPair rest
  | [] => false

/-! ## `promptUser` (source lines 199-235) -/

/-- Outcome of the scanning loop of `promptUser`: either the early `return 0` (a `#` was met)
or the loop ended, normally or by `break`, with a value of `hasChars`. -/
inductive ScanOutcome where
  | returnedZero
  | finished (hasChars : Int)
  deriving DecidableEq, Repr

/-- The `for` loop of `promptUser` over the line stored by `fgets`. -/
def promptUserLoop (cl : List Char) : Nat → Nat → ScanOutcome
  | 0, _ => ScanOutcome.finished 0
  | fuel + 1, i =>
    if i < cl.length then
      if charAt cl i = '#' then ScanOutcome.returnedZero
      else if charAt cl i ≠ ' ' ∧ charAt cl i ≠ NUL ∧ charAt cl i ≠ '\n' then
        ScanOutcome.finished 1
      else promptUserLoop cl fuel (i + 1)
    else ScanOutcome.finished 0

/-- The function `promptUser`, as a function of the line that `fgets` stored (the buffer is
zero-filled before, so an empty list is the case where nothing was read). -/
def promptUser (cl : List Char) : Int :=
  match promptUserLoop cl cl.length 0 with
  | ScanOutcome.returnedZero => 0
  | ScanOutcome.finished hasChars =>
    if charAt cl 0 = '#' ∨ charAt cl 0 = NUL ∨ charAt cl 0 = '\n' ∨ hasChars = 0 then 0
    else 1

/-! ## `processComm` (source lines 289-376) and `procRedirect` (lines 460-506) -/

/-- The struct `commandLine`.  `arguments` (at most `MAXARG` strings) and `extendArgs` (at most
`MAXARG + 1` strings, without the closing `NULL`) list the stored strings in index order;
`redirection` lists the stores `redirection[i] = ...` as pairs of the index used and the string
stored, in program order (the C array is declared with 2 elements). -/
structure commandLine where
  command : List Char
  arguments : List (List Char)
  extendArgs : List (List Char)
  redirection : List (Nat × List Char)
  background : Int
  deriving DecidableEq, Repr

/-- The delimiter string of the `strtok_r` calls in `processComm`. -/
def delimComm : List Char := " ,'\n'".toList

/-- The delimiter string of the second `strtok_r` call in `procRedirect`. -/
def delimRedirect : List Char := " , '\n'".toList

/-- One call of `strtok_r` on the text `s` that remains to be scanned: `none` is `NULL`,
otherwise the token and the text after the delimiter that ended it (the new `saveptr`). -/
def strtok_r (delim : List Char) (s : List Char) : Option (List Char × List Char) :=
  match s.dropWhile (fun c => decide (c ∈ delim)) with
  | [] => none
  | c :: rest =>
    some ((c :: rest).takeWhile (fun d => !decide (d ∈ delim)),
          ((c :: rest).dropWhile (fun d => !decide (d ∈ delim))).tail)

/-- The loop of lines 315-320: a `;` is written right after every `<` or `>`. -/
def markRedirectLoop : Nat → List Char → Nat → Nat → List Char
  | 0, cl, _, _ => cl
  | fuel + 1, cl, i, j =>
    if i < cl.length then
      markRedirectLoop fuel
        (if charAt cl j = '<' ∨ charAt cl j = '>' then cl.set i ';' else cl) (i + 1) (j + 1)
    else cl

/-- The test of lines 324-330: the value given to `background` and the line afterwards
(cut before the `&` when the flag is set).  `strlen - 2` and `strlen - 3` are unsigned, so a
shorter line makes the index wrap. -/
def backgroundCheck (cl : List Char) : Except Fault (Int × List Char) :=
  if cl.length < 2 then Except.error Fault.indexBeforeLine
  else if charAt cl (cl.length - 2) = '&' then
    if cl.length < 3 then Except.error Fault.indexBeforeLine
    else if charAt cl (cl.length - 3) = ' ' then Except.ok (1, cl.take (cl.length - 2))
    else Except.ok (0, cl)
  else Except.ok (0, cl)

/-- The arrays and index counters that the `while` loop of `processComm` updates. -/
structure ParseState where
  arguments : List (List Char)
  extendArgs : List (List Char)
  redirection : List (Nat × List Char)
  iArguments : Nat
  iRedirections : Nat
  iExtendArgs : Nat
  deriving DecidableEq, Repr

/-- The string that `strlen(token)` and `strcpy` find at `token` after `token[1] = ' '`.  For a
token of two or more characters its second character is replaced.  For a token of one
character the write replaces the terminator that `strtok_r` left after it, so the string runs
on through the text that follows, up to the next zero byte; behind the end of the line the
buffer holds zero bytes (`memset` in `promptUser`; `varExpansion` leaves other bytes there only
when its result is shorter than the line, which takes a pid of a single digit), so the text that
follows a token at the end of the line is empty. -/
def gluedToken (token saveptr : List Char) : List Char :=
  if token.length < 2 then token ++ ' ' :: saveptr else token.set 1 ' '

/-- The `while (token != NULL)` loop of lines 348-370; `tok` is the current result of
`strtok_r`.  `room` tells whether the buffer of the line has a byte behind the terminator of the
line.  A store at an index outside its array ends the loop with a `Fault`. -/
def tokenLoop (room : Bool) :
    Nat → Option (List Char × List Char) → ParseState → Except Fault ParseState
  | 0, _, st => Except.ok st
  | _ + 1, none, st => Except.ok st
  | fuel + 1, some (token, saveptr), st =>
    if charAt token 0 = '<' ∨ charAt token 0 = '>' then
      if token.length < 2 ∧ saveptr = [] ∧ room = false then
        Except.error Fault.terminatorOverwritten
      else if 2 ≤ st.iRedirections then
        Except.error (Fault.redirectionStore st.iRedirections (gluedToken token saveptr))
      else
        tokenLoop room fuel (strtok_r delimComm saveptr)
          { st with
            redirection := st.redirection ++ [(st.iRedirections, gluedToken token saveptr)]
            iRedirections := st.iRedirections + 1 }
    else if MAXARG ≤ st.iArguments then Except.error (Fault.argumentsStore st.iArguments)
    else if MAXARG + 2 ≤ st.iExtendArgs then Except.error (Fault.extendArgsStore st.iExtendArgs)
    else
      tokenLoop room fuel (strtok_r delimComm saveptr)
        { st with
          arguments := st.arguments ++ [token]
          extendArgs := st.extendArgs ++ [token]
          iArguments := st.iArguments + 1
          iExtendArgs := st.iExtendArgs + 1 }

/-- The function `processComm` on the (expanded) line, which lies in a buffer of `MAXCOMM`
bytes.  The last statement stores `NULL` at `extendArgs[iExtendArgs]`. -/
def processComm (line : List Char) : Except Fault commandLine :=
  match backgroundCheck (markRedirectLoop line.length line 1 0) with
  | Except.error e => Except.error e
  | Except.ok (background, cl) =>
    match strtok_r delimComm cl with
    | none => Except.error Fault.nullToken
    | some (token, saveptr) =>
      match tokenLoop (decide (line.length + 1 < MAXCOMM)) (saveptr.length + 1)
          (strtok_r delimComm saveptr)
          { arguments := [], extendArgs := [token], redirection := [],
            iArguments := 0, iRedirections := 0, iExtendArgs := 1 } with
      | Except.error e => Except.error e
      | Except.ok st =>
        if MAXARG + 2 ≤ st.iExtendArgs then Except.error (Fault.extendArgsStore st.iExtendArgs)
        else
          Except.ok
            { command := token, arguments := st.arguments, extendArgs := st.extendArgs,
              redirection := st.redirection, background := background }

/-- Direction of a redirection, decided by `procRedirect` from the first character. -/
inductive Direction where
  | input
  | output
  deriving DecidableEq, Repr

/-- What `procRedirect` does with the string stored in `redirection[index]`: the direction and
the path handed to `open` (`none` is a `NULL` path). -/
def procRedirect (r : List Char) : Except Fault (Direction × Option (List Char)) :=
  match strtok_r " ".toList r with
  | none => Except.error Fault.nullToken
  | some (token, saveptr) =>
    if charAt token 0 = '<' then
      Except.ok (Direction.input, (strtok_r delimRedirect saveptr).map Prod.fst)
    else
      Except.ok (Direction.output, (strtok_r delimRedirect saveptr).map Prod.fst)

/-! ## The handler `parentSIGTSTP` (source lines 89-111) and the flag `fgOnly` -/

/-- The bytes that `write(STDOUT_FILENO, message, n)` emits for a string literal `message`:
the first `n` bytes of the literal, which is followed in memory by its terminator. -/
def writeBytes (message : List Char) (n : Nat) : List Char := (message ++ [NUL]).take n

/-- The initial value of the global `fgOnly`. -/
def fgOnlyInit : Int := 0

/-- One run of `parentSIGTSTP`: the new value of `fgOnly` and the `write` calls made, each as
the bytes it emits (saving and restoring `errno` leaves no trace here). -/
def parentSIGTSTP (fgOnly : Int) : Int × List (List Char) :=
  if fgOnly = 0 then
    (1, [writeBytes "Entering foreground-only mode (& is now ignored)\n".toList 50])
  else
    (0, [writeBytes "Exiting foreground-only mode\n".toList 30])

/-- The value of `fgOnly` and the `write` calls made, in order, after `n` deliveries of the stop
signal starting from the value `fgOnly`. -/
def deliverSIGTSTP : Nat → Int → Int × List (List Char)
  | 0, fgOnly => (fgOnly, [])
  | n + 1, fgOnly =>
    ((deliverSIGTSTP n (parentSIGTSTP fgOnly).1).1,
     (parentSIGTSTP fgOnly).2 ++ (deliverSIGTSTP n (parentSIGTSTP fgOnly).1).2)

/-- The bytes written on entering foreground-only mode: the message line and the terminator of
the literal (the count passed to `write` is 50 for 49 characters). -/
def enteringBytes : List Char :=
  "Entering foreground-only mode (& is now ignored)".toList ++ ['\n', NUL]

/-- The bytes written on leaving foreground-only mode: the message line and the terminator of
the literal (the count passed to `write` is 30 for 29 characters). -/
def exitingBytes : List Char := "Exiting foreground-only mode".toList ++ ['\n', NUL]

/-! ## The job list: `struct bgPid` and `addToBgList` (source lines 549-573) -/

/-- The function `addToBgList` on the linked list of `backgroundPid` values, head first.
`main` always passes a list with at least the head node. -/
def addToBgList (spawnpid : Int) : List Int → List Int
  | [] => []
  | backgroundPid :: next =>
    if backgroundPid = 0 then spawnpid :: next
    else if next = [] then backgroundPid :: [spawnpid]
    else backgroundPid :: addToBgList spawnpid next

/-- The PIDs held by the slots of a job list that are not cleared, in list order. -/
def livePids (bgList : List Int) : List Int := bgList.filter (fun pid => decide (pid ≠ 0))

/-! ## `checkStatus` (source lines 426-452) -/

/-- The wait-status macros of `<sys/wait.h>`, which the repository uses but does not define.
Each returns a C truth value or number. -/
structure WaitMacros where
  WIFEXITED : Int → Int
  WEXITSTATUS : Int → Int
  WIFSIGNALED : Int → Int
  WTERMSIG : Int → Int

/-- The text that `checkStatus` prints for a wait status. -/
def checkStatus (m : WaitMacros) (exitStatus : Int) : List Char :=
  if m.WIFEXITED exitStatus ≠ 0 then
    "exit value ".toList ++ fmtInt (m.WEXITSTATUS exitStatus) ++ "\n".toList
  else if m.WIFSIGNALED exitStatus ≠ 0 then
    "terminated by signal ".toList ++ fmtInt (m.WTERMSIG exitStatus) ++ "\n".toList
  else
    fmtInt 0 ++ "\n".toList

/-! ## The parent side of `otherCommand` (source lines 712-780) -/

/-- What a call of `waitpid` on a child can report. -/
inductive WaitOutcome where
  /-- With `WNOHANG`: the child has not changed state, `waitpid` returns 0. -/
  | running
  /-- The child was reaped: `waitpid` returns its pid and stores the status. -/
  | reaped (status : Int)
  /-- The call failed: `waitpid` returns -1 and stores nothing. -/
  | failed
  deriving DecidableEq, Repr

/-- The return value of `waitpid(pid, &status, ...)` for an outcome. -/
def waitpidReturn (pid : Int) : WaitOutcome → Int
  | WaitOutcome.running => 0
  | WaitOutcome.reaped _ => pid
  | WaitOutcome.failed => -1

/-- The content of the status variable after `waitpid(pid, &status, ...)`. -/
def waitpidStatus (before : Int) : WaitOutcome → Int
  | WaitOutcome.running => before
  | WaitOutcome.reaped status => status
  | WaitOutcome.failed => before

/-- What the parent side of `otherCommand` does that is visible outside. -/
inductive Event where
  | print (text : List Char)
  | waitNoHang (pid : Int)
  | waitBlocking (pid : Int)
  | addToBgList (pid : Int)
  | restoreMask
  deriving DecidableEq, Repr

/-- State threaded through the scan of the job list: the list after the scan, the events in
order, the number of `WNOHANG` calls made so far and the content of `bgChildStatus`. -/
structure ScanResult where
  bgList : List Int
  events : List Event
  calls : Nat
  bgChildStatus : Int
  deriving DecidableEq, Repr

/-- The `while` loop of lines 718-733.  `noHang k` is the outcome of the `k`-th `WNOHANG` call of
this run of `otherCommand`. -/
def scanBgList (m : WaitMacros) (noHang : Nat → WaitOutcome) :
    List Int → Nat → Int → ScanResult
  | [], calls, bgChildStatus =>
    { bgList := [], events := [], calls := calls, bgChildStatus := bgChildStatus }
  | backgroundPid :: next, calls, bgChildStatus =>
    if backgroundPid ≠ 0 then
      if waitpidReturn backgroundPid (noHang calls) ≠ 0 then
        let r := scanBgList m noHang next (calls + 1) (waitpidStatus bgChildStatus (noHang calls))
        { r with
          bgList := 0 :: r.bgList
          events :=
            [Event.waitNoHang backgroundPid,
             Event.print ("background pid ".toList ++ fmtInt backgroundPid ++ " is done: ".toList),
             Event.print (checkStatus m (waitpidStatus bgChildStatus (noHang calls)))]
            ++ r.events }
      else
        let r := scanBgList m noHang next (calls + 1) (waitpidStatus bgChildStatus (noHang calls))
        { r with
          bgList := backgroundPid :: r.bgList
          events := Event.waitNoHang backgroundPid :: r.events }
    else
      let r := scanBgList m noHang next calls bgChildStatus
      { r with bgList := backgroundPid :: r.bgList }

/-- The values that the parent reads from its surroundings: the outcomes of the `waitpid` calls,
the value of the volatile `fgOnly` at each of its three reads, and the indeterminate initial
contents of the two status variables. -/
structure ParentEnv where
  noHang : Nat → WaitOutcome
  blocking : WaitOutcome
  fgOnlyAt739 : Int
  fgOnlyAt759 : Int
  fgOnlyAt771 : Int
  childStatusInit : Int
  bgChildStatusInit : Int

/-- Result of the parent side of `otherCommand`: the job list afterwards, the events in order and
the returned `childStatus`. -/
structure ParentResult where
  bgList : List Int
  events : List Event
  childStatus : Int
  deriving DecidableEq, Repr

/-- Lines 738-756: the branch taken when the command is backgrounded and the mode is off. -/
def backgroundBranch (m : WaitMacros) (env : ParentEnv) (background spawnpid : Int)
    (s : ScanResult) : ScanResult :=
  if background = 1 ∧ env.fgOnlyAt739 = 0 then
    if waitpidReturn spawnpid (env.noHang s.calls) ≠ 0 then
      { bgList := s.bgList
        events := s.events ++
          [Event.print ("background pid is ".toList ++ fmtInt spawnpid ++ "\n".toList),
           Event.waitNoHang spawnpid,
           Event.print ("background pid ".toList ++ fmtInt spawnpid ++ " is done: ".toList),
           Event.print (checkStatus m (waitpidStatus s.bgChildStatus (env.noHang s.calls)))]
        calls := s.calls + 1
        bgChildStatus := waitpidStatus s.bgChildStatus (env.noHang s.calls) }
    else
      { bgList := addToBgList spawnpid s.bgList
        events := s.events ++
          [Event.print ("background pid is ".toList ++ fmtInt spawnpid ++ "\n".toList),
           Event.waitNoHang spawnpid,
           Event.addToBgList spawnpid]
        calls := s.calls + 1
        bgChildStatus := waitpidStatus s.bgChildStatus (env.noHang s.calls) }
  else s

/-- Lines 758-774: the branch taken when the command runs in the foreground. -/
def foregroundBranch (env : ParentEnv) (background spawnpid : Int) (s : ScanResult) :
    ParentResult :=
  if background = 0 ∨ env.fgOnlyAt759 = 1 then
    { bgList := s.bgList
      events := s.events ++ [Event.waitBlocking spawnpid]
        ++ (if waitpidStatus env.childStatusInit env.blocking = 2 then
              [Event.print ("terminated by signal ".toList
                ++ fmtInt (waitpidStatus env.childStatusInit env.blocking) ++ "\n".toList)]
            else [])
        ++ (if env.fgOnlyAt771 = 1 then [Event.restoreMask] else [])
      childStatus := waitpidStatus env.childStatusInit env.blocking }
  else
    { bgList := s.bgList, events := s.events, childStatus := env.childStatusInit }

/-- The `default:` case of `otherCommand`, run by the parent after a successful `fork` that
returned `spawnpid`, for a command whose `background` field is `background`. -/
def otherCommandParent (m : WaitMacros) (env : ParentEnv) (background spawnpid : Int)
    (bgList : List Int) : ParentResult :=
  foregroundBranch env background spawnpid
    (backgroundBranch m env background spawnpid
      (scanBgList m env.noHang bgList 0 env.bgChildStatusInit))

/-! ## One iteration of the loop of `main` (source lines 809-855) -/

/-- The announcement printed by line 743 for a new background pid. -/
def announcement (spawnpid : Int) : List Char :=
  "background pid is ".toList ++ fmtInt spawnpid ++ "\n".toList

/-- The text that starts a completion report for a pid. -/
def doneMessage (pid : Int) : List Char :=
  "background pid ".toList ++ fmtInt pid ++ " is done: ".toList

/-- The content of `bgChildStatus` before the `k`-th `WNOHANG` call, from its initial content
and the outcomes of the earlier calls. -/
def statusBefore (noHang : Nat → WaitOutcome) (init : Int) : Nat → Int
  | 0 => init
  | k + 1 => waitpidStatus (statusBefore noHang init k) (noHang k)

/-- What the scan is to do for a live slot holding `pid`, by the outcome of its wait: a wait
alone when the child still runs, a wait and a completion report with the decoded status when it
was reaped (when the wait fails the report shows the previous content of the status). -/
def slotEvents (m : WaitMacros) (pid : Int) (previous : Int) : WaitOutcome → List Event
  | WaitOutcome.running => [Event.waitNoHang pid]
  | WaitOutcome.reaped status =>
    [Event.waitNoHang pid, Event.print (doneMessage pid), Event.print (checkStatus m status)]
  | WaitOutcome.failed =>
    [Event.waitNoHang pid, Event.print (doneMessage pid), Event.print (checkStatus m previous)]

/-- The content of a live slot after the scan, by the outcome of its wait. -/
def slotAfter (pid : Int) : WaitOutcome → Int
  | WaitOutcome.running => pid
  | WaitOutcome.reaped _ => 0
  | WaitOutcome.failed => 0

/-- The pids on which a list of events performs a non-blocking wait, in order. -/
def waitedPids : List Event → List Int
  | [] => []
  | Event.waitNoHang pid :: rest => pid :: waitedPids rest
  | _ :: rest => waitedPids rest

/-- Modelled from the spec: the platform's native wait-status encoding, which the repository
takes from `<sys/wait.h>`; this is the encoding of Linux, where the low seven bits hold the
terminating signal (0 for a normal exit) and the next byte holds the exit code. -/
def linuxWaitMacros : WaitMacros where
  WIFEXITED := fun s => if s % 128 = 0 then 1 else 0
  WEXITSTATUS := fun s => (s / 256) % 256
  WIFSIGNALED := fun s => if 1 ≤ s % 128 ∧ s % 128 ≤ 126 then 1 else 0
  WTERMSIG := fun s => s % 128

/-! ## The wait statuses of a terminated child -/

/-- The signals whose default action on Linux ends the process with a core file (`signal(7)`):
SIGQUIT 3, SIGILL 4, SIGTRAP 5, SIGABRT 6, SIGBUS 7, SIGFPE 8, SIGSEGV 11, SIGXCPU 24,
SIGXFSZ 25 and SIGSYS 31.  The interrupt signal 2 is not among them. -/
def coreDumpSignals : List Int := [3, 4, 5, 6, 7, 8, 11, 24, 25, 31]

/-- How a child that `waitpid(spawnpid, &childStatus, 0)` reaps has ended: it called `exit` or
returned from `main` with a code, or a signal killed it, with or without a core file. -/
inductive ChildEnd where
  | exited (code : Int)
  | killed (signal : Int) (core : Bool)
  deriving DecidableEq, Repr

/-- The ends that occur: the parent sees the low 8 bits of an exit code; signals are numbered
from 1 to 64, and a core file is written only for a signal of `coreDumpSignals`. -/
def ChildEnd.Possible : ChildEnd → Prop
  | ChildEnd.exited code => 0 ≤ code ∧ code ≤ 255
  | ChildEnd.killed signal core =>
    1 ≤ signal ∧ signal ≤ 64 ∧ (core = true → signal ∈ coreDumpSignals)

instance : (e : ChildEnd) → Decidable e.Possible
  | ChildEnd.exited code => inferInstanceAs (Decidable (0 ≤ code ∧ code ≤ 255))
  | ChildEnd.killed signal core =>
    inferInstanceAs
      (Decidable (1 ≤ signal ∧ signal ≤ 64 ∧ (core = true → signal ∈ coreDumpSignals)))

/-- Modelled from the spec: the platform's native wait-status encoding, here the status that
`waitpid` stores on Linux for a child's end: the exit code in the second byte, or the signal in
the low seven bits with the bit 128 set when a core file was written. -/
def waitStatus : ChildEnd → Int
  | ChildEnd.exited code => code * 256
  | ChildEnd.killed signal core => signal + (if core then 128 else 0)

/-- An environment for examples: the first non-blocking wait reaps a child that exited with
code 3, every later one finds its child running, and the blocking wait reaps a child that
exited with code 0; `fgOnly` reads as `fgOnly` throughout. -/
def exampleEnv (fgOnly : Int) : ParentEnv where
  noHang := fun k => if k = 0 then WaitOutcome.reaped 768 else WaitOutcome.running
  blocking := WaitOutcome.reaped 0
  fgOnlyAt739 := fgOnly
  fgOnlyAt759 := fgOnly
  fgOnlyAt771 := fgOnly
  childStatusInit := 0
  bgChildStatusInit := 0

/-- The pids on which a list of events performs a blocking wait, in order. -/
def blockingWaits : List Event → List Int
  | [] => []
  | Event.waitBlocking pid :: rest => pid :: blockingWaits rest
  | _ :: rest => blockingWaits rest

/-! ## Lines made of words: the input format against which the parser is stated

A line is described by the words it is written from: the command name, then items, each
preceded by one or more spaces, then optional spaces and the newline.  An item is a plain word
or a redirection written as the operator character, one space and the path word. -/

/-- A word: non-empty, free of the delimiters of `strtok_r` and of `<` and `>`. -/
def IsWord (w : List Char) : Prop :=
  w ≠ [] ∧ ∀ c ∈ w, c ∉ delimComm ∧ c ≠ '<' ∧ c ≠ '>'

instance (w : List Char) : Decidable (IsWord w) :=
  inferInstanceAs (Decidable (w ≠ [] ∧ ∀ c ∈ w, c ∉ delimComm ∧ c ≠ '<' ∧ c ≠ '>'))

/-- An item of a line after the command name. -/
inductive Item where
  /-- A plain word. -/
  | arg (word : List Char)
  /-- An operator character, one space, and the path word. -/
  | redirect (op : Char) (path : List Char)
  deriving DecidableEq, Repr

/-- The text of an item as typed. -/
def Item.text : Item → List Char
  | Item.arg word => word
  | Item.redirect op path => op :: ' ' :: path

/-- An item is well formed when its words are words and its operator is `<` or `>`. -/
def Item.WellFormed : Item → Prop
  | Item.arg word => IsWord word
  | Item.redirect op path => (op = '<' ∨ op = '>') ∧ IsWord path

instance : (it : Item) → Decidable it.WellFormed
  | Item.arg word => inferInstanceAs (Decidable (IsWord word))
  | Item.redirect op path => inferInstanceAs (Decidable ((op = '<' ∨ op = '>') ∧ IsWord path))

/-- The text of the items, each preceded by `n + 1` spaces for its number `n` of extra spaces. -/
def renderItems : List (Nat × Item) → List Char
  | [] => []
  | (n, it) :: rest => List.replicate (n + 1) ' ' ++ it.text ++ renderItems rest

/-- The line: `lead` spaces, the command name, the items, `trail` spaces and the newline. -/
def renderLine (lead : Nat) (name : List Char) (items : List (Nat × Item)) (trail : Nat) :
    List Char :=
  List.replicate lead ' ' ++ name ++ renderItems items ++ List.replicate trail ' ' ++ ['\n']

/-- Whether the line ends with the background marker: its last item is the plain word `&` and
the newline follows at once. -/
def endsWithMarker (items : List (Nat × Item)) (trail : Nat) : Bool :=
  match items.getLast? with
  | some (_, Item.arg word) => decide (word = "&".toList ∧ trail = 0)
  | _ => false

/-- The items that remain once a closing background marker is taken off. -/
def effectiveItems (items : List (Nat × Item)) (trail : Nat) : List (Nat × Item) :=
  if endsWithMarker items trail then items.dropLast else items

/-- The plain words among the items, in order. -/
def argWords : List (Nat × Item) → List (List Char)
  | [] => []
  | (_, Item.arg word) :: rest => word :: argWords rest
  | (_, Item.redirect _ _) :: rest => argWords rest

/-- The number of redirections among the items. -/
def countRedirects : List (Nat × Item) → Nat
  | [] => 0
  | (_, Item.arg _) :: rest => countRedirects rest
  | (_, Item.redirect _ _) :: rest => countRedirects rest + 1

/-- The redirections among the items, in order, each with its index counted from `start` and
the string `op path` with one space. -/
def redirStores : Nat → List (Nat × Item) → List (Nat × List Char)
  | _, [] => []
  | start, (_, Item.arg _) :: rest => redirStores start rest
  | start, (_, Item.redirect op path) :: rest =>
    (start, op :: ' ' :: path) :: redirStores (start + 1) rest

/-- The direction that an operator character stands for. -/
def directionOf (op : Char) : Direction :=
  if op = '<' then Direction.input else Direction.output

/-! ## Auxiliary descriptions of the intermediate strings of `processComm` -/

/-- The marking loop as a pass over the characters: `pending` tells that the character before
was an operator left in place, so that the next character is overwritten. -/
def markAux : Bool → List Char → List Char
  | _, [] => []
  | true, _ :: rest => ';' :: markAux false rest
  | false, c :: rest => c :: markAux (decide (c = '<' ∨ c = '>')) rest

/-- The text of an item after the marking loop: the space after an operator has become `;`. -/
def Item.marked : Item → List Char
  | Item.arg word => word
  | Item.redirect op path => op :: ';' :: path

/-- The text of the items after the marking loop. -/
def renderItemsMarked : List (Nat × Item) → List Char
  | [] => []
  | (n, it) :: rest => List.replicate (n + 1) ' ' ++ it.marked ++ renderItemsMarked rest

/-- A text that is empty or starts with a delimiter. -/
def StartsDelim (R : List Char) : Prop := R = [] ∨ ∃ d R2, R = d :: R2 ∧ d ∈ delimComm

/-- The state of the loop of `processComm` after the tokens of the given items. -/
def stateAfter (st : ParseState) (items : List (Nat × Item)) : ParseState :=
  { arguments := st.arguments ++ argWords items
    extendArgs := st.extendArgs ++ argWords items
    redirection := st.redirection ++ redirStores st.iRedirections items
    iArguments := st.iArguments + (argWords items).length
    iRedirections := st.iRedirections + countRedirects items
    iExtendArgs := st.iExtendArgs + (argWords items).length }

/-! ## Whitespace-delimited tokens, as the specification words the tokenization -/

/-- Whitespace: space, tab and newline. -/
def isWhitespace (c : Char) : Bool := c = ' ' || c = '\t' || c = '\n'

/-- The maximal runs of non-whitespace characters of a text; `cur` is the run being read. -/
def whitespaceTokensAux : List Char → List Char → List (List Char)
  | [], cur => if cur = [] then [] else [cur]
  | c :: rest, cur =>
    if isWhitespace c then
      if cur = [] then whitespaceTokensAux rest [] else cur :: whitespaceTokensAux rest []
    else whitespaceTokensAux rest (cur ++ [c])

/-- The whitespace-delimited tokens of a line. -/
def whitespaceTokens (line : List Char) : List (List Char) := whitespaceTokensAux line []

/-! ## `exitCheck` (source lines 382-395) and `changeDir` (lines 405-417) -/

/-- The function `exitCheck` on the job list: the pids to which `kill(pid, SIGKILL)` is sent, in
order, and the value returned. -/
def exitCheck : List Int → List Int × Int
  | [] => ([], 0)
  | backgroundPid :: next =>
    if backgroundPid ≠ 0 then (backgroundPid :: (exitCheck next).1, (exitCheck next).2)
    else exitCheck next

/-- The argument that `changeDir` passes to `chdir`: `none` stands for `getenv("HOME")`. -/
def changeDir (c : commandLine) : Option (List Char) :=
  match c.arguments with
  | [] => none
  | first :: _ => some first

/-! ## The child side of `otherCommand` (source lines 676-709) -/

/-- The calls that the child makes, in order. -/
inductive ChildStep where
  /-- The call `changeSIGINT()`: interrupt is no longer ignored. -/
  | changeSIGINT
  /-- The call `initSIGTSTP()`: stop is ignored. -/
  | initSIGTSTP
  /-- The call `bgRedirect`: standard input and output are bound to `/dev/null`. -/
  | bgRedirect
  /-- The call `procRedirect(currCommand, index)`. -/
  | procRedirect (index : Nat)
  /-- The call `execvp(command, extendArgs)`. -/
  | execvp (command : List Char) (extendArgs : List (List Char))
  deriving DecidableEq, Repr

/-- The `case 0:` of `otherCommand`: the calls of the child up to `execvp`, when none of them
ends the child before.  `fgOnly` is the value that the child reads at line 683. -/
def otherCommandChild (fgOnly : Int) (c : commandLine) : List ChildStep :=
  (if c.background = 0 then [ChildStep.changeSIGINT] else [])
  ++ (if fgOnly = 0 then [ChildStep.initSIGTSTP] else [])
  ++ (if c.background = 1 then [ChildStep.bgRedirect] else [])
  ++ (if (c.redirection.lookup 0).isSome then [ChildStep.procRedirect 0] else [])
  ++ (if (c.redirection.lookup 1).isSome then [ChildStep.procRedirect 1] else [])
  ++ [ChildStep.execvp c.command c.extendArgs]

/-! ## The function `main` (source lines 790-861) -/

/-- What `main` does that is visible outside, besides the parent events of a launch. -/
inductive MainEvent where
  /-- One call of `promptUser`: the prompt is printed and a line is read. -/
  | prompt
  /-- The call `kill(pid, SIGKILL)` made by `exitCheck`. -/
  | kill (pid : Int)
  /-- The call `chdir` made by `changeDir`; `none` stands for `getenv("HOME")`. -/
  | chdir (target : Option (List Char))
  /-- The text printed by `checkStatus(exitStatus)` for the command `status`. -/
  | print (text : List Char)
  /-- The events of the parent side of `otherCommand`. -/
  | launch (events : List Event)
  deriving DecidableEq, Repr

/-- How a run of `main` on given input lines ends. -/
inductive MainOutcome where
  /-- The loop ended and `main` returned this value. -/
  | returned (code : Int)
  /-- The lines given are used up while the loop still runs. -/
  | awaitingInput
  /-- The call of `varExpansion` or of `processComm` left defined behaviour. -/
  | fault (f : Fault)
  /-- The call of `fork` failed and `otherCommand` called `exit(-1)`. -/
  | forkFailed
  deriving DecidableEq, Repr

/-- The variables of `main`: `runSmallsh`, `exitStatus` and the job list behind `head`. -/
structure MainState where
  runSmallsh : Int
  exitStatus : Int
  head : List Int
  deriving DecidableEq, Repr

/-- The values of `main` before its loop: `runSmallsh = -5`, `exitStatus = 0` and a job list of
one cleared node. -/
def mainInit : MainState := { runSmallsh := -5, exitStatus := 0, head := [0] }

/-- The value of `EXIT_SUCCESS`. -/
def EXIT_SUCCESS : Int := 0

/-- What one launch reads from its surroundings: the value returned by `fork` in the parent and
the environment of the parent side. -/
structure LaunchEnv where
  spawnpid : Int
  parent : ParentEnv

/-- The `while (runSmallsh == -5)` loop of `main` on the lines that `fgets` stores one after the
other; `n` counts the iterations made, `launch n` is the environment of a launch in iteration
`n`.  The result is the events in order and the way the run ends. -/
def mainLoop (m : WaitMacros) (smallshPid : Int) (launch : Nat → LaunchEnv) :
    List (List Char) → Nat → MainState → List MainEvent × MainOutcome
  | [], _, st =>
    if st.runSmallsh = -5 then ([], MainOutcome.awaitingInput)
    else ([], MainOutcome.returned EXIT_SUCCESS)
  | line :: rest, n, st =>
    if st.runSmallsh = -5 then
      match varExpansion smallshPid line with
      | Except.error f => ([MainEvent.prompt], MainOutcome.fault f)
      | Except.ok expanded =>
        if promptUser line = 1 then
          match processComm expanded with
          | Except.error f => ([MainEvent.prompt], MainOutcome.fault f)
          | Except.ok c =>
            if c.command = "exit".toList then
              let r := mainLoop m smallshPid launch rest (n + 1)
                { st with runSmallsh := (exitCheck st.head).2 }
              (MainEvent.prompt :: (exitCheck st.head).1.map MainEvent.kill ++ r.1, r.2)
            else if c.command = "cd".toList then
              let r := mainLoop m smallshPid launch rest (n + 1) st
              (MainEvent.prompt :: MainEvent.chdir (changeDir c) :: r.1, r.2)
            else if c.command = "status".toList then
              let r := mainLoop m smallshPid launch rest (n + 1) st
              (MainEvent.prompt :: MainEvent.print (checkStatus m st.exitStatus) :: r.1, r.2)
            else if (launch n).spawnpid = -1 then
              ([MainEvent.prompt], MainOutcome.forkFailed)
            else
              let p := otherCommandParent m (launch n).parent c.background (launch n).spawnpid
                st.head
              let r := mainLoop m smallshPid launch rest (n + 1)
                { st with exitStatus := p.childStatus, head := p.bgList }
              (MainEvent.prompt :: MainEvent.launch p.events :: r.1, r.2)
        else
          let r := mainLoop m smallshPid launch rest (n + 1) st
          (MainEvent.prompt :: r.1, r.2)
    else ([], MainOutcome.returned EXIT_SUCCESS)

/-- The function `main` on the lines of its input. -/
def main (m : WaitMacros) (smallshPid : Int) (launch : Nat → LaunchEnv)
    (lines : List (List Char)) : List MainEvent × MainOutcome :=
  mainLoop m smallshPid launch lines 0 mainInit

/-- An environment for examples in which every launch forks the child 9 and the blocking wait
reaps it with the given status, the mode being off. -/
def exampleLaunch (status : Int) : Nat → LaunchEnv := fun _ =>
  { spawnpid := 9
    parent :=
      { noHang := fun _ => WaitOutcome.running
        blocking := WaitOutcome.reaped status
        fgOnlyAt739 := 0
        fgOnlyAt759 := 0
        fgOnlyAt771 := 0
        childStatusInit := 0
        bgChildStatusInit := 0 } }

/-! ## Theorems -/

/-! ### `varExpansion` -/

theorem expandSpec_cons (P : List Char) (c : Char) (rest : List Char) :
    expandSpec P (c :: rest) =
      if c = '$' ∧ rest.head? = some '$' then P ++ expandSpec P rest.tail
      else c :: expandSpec P rest := by
  cases rest with
  | nil => 
    simp [expandSpec]
  | cons d rest =>
    by_cases hc : c = '$'
    · by_cases hd : d = '$'
      · subst hc; subst hd; simp [expandSpec]
      · subst hc; simp [hd]
        rw [expandSpec]
        intro r _ h
        simp at h
        exact hd h.1
    · simp [hc]
      rw [expandSpec]
      intro r h
      exact absurd h hc

theorem varExpansionLoop_step_pair (P cl : List Char) (j : Nat)
    (hm : charAt cl (j + 1) = '$' ∧ charAt cl j = '$') :
    j + 1 < cl.length ∧
      expandSpec P (cl.drop j) =
        P ++ expandSpec P ((((cl.set (j + 1) '#').set j '#')).drop (j + 1 + 1)) := by
  have hj1 : j + 1 < cl.length := by
    by_contra hcon
    have : charAt cl (j + 1) = NUL := by
      unfold charAt
      exact List.getD_eq_default _ _ (Nat.le_of_not_lt hcon)
    rw [this] at hm
    exact absurd hm.1 (by decide)
  have hj : j < cl.length := by omega
  refine ⟨hj1, ?_⟩
  have hdrop : cl.drop j = cl[j] :: cl.drop (j + 1) := List.drop_eq_getElem_cons hj
  have hcj : charAt cl j = cl[j] := by simp [charAt, List.getD_eq_getElem, hj]
  have hdrop1 : cl.drop (j + 1) = cl[j + 1] :: cl.drop (j + 2) :=
    List.drop_eq_getElem_cons hj1
  have hcj1 : charAt cl (j + 1) = cl[j + 1] := by simp [charAt, List.getD_eq_getElem, hj1]
  rw [hdrop, hdrop1, expandSpec_cons]
  rw [← hcj, ← hcj1, hm.1, hm.2]
  simp [List.drop_set]
  rw [if_pos (by omega)]

theorem varExpansionLoop_step_copy (P cl : List Char) (j : Nat) (hj : j < cl.length)
    (hm : ¬ (charAt cl (j + 1) = '$' ∧ charAt cl j = '$')) :
    expandSpec P (cl.drop j) = charAt cl j :: expandSpec P (cl.drop (j + 1)) := by
  have hdrop : cl.drop j = cl[j] :: cl.drop (j + 1) := List.drop_eq_getElem_cons hj
  have hcj : charAt cl j = cl[j] := by simp [charAt, List.getD_eq_getElem, hj]
  rw [hdrop, expandSpec_cons, hcj]
  have hne : ¬ (cl[j] = '$' ∧ (cl.drop (j + 1)).head? = some '$') := by
    rintro ⟨h1, h2⟩
    apply hm
    refine ⟨?_, by rw [hcj]; exact h1⟩
    by_cases hj1 : j + 1 < cl.length
    · rw [List.drop_eq_getElem_cons hj1] at h2
      simp at h2
      simp [charAt, List.getD_eq_getElem, hj1, h2]
    · rw [List.drop_eq_nil_of_le (by omega)] at h2
      simp at h2
  rw [if_neg hne]

/-- The loop of `varExpansion`, with enough fuel, from a buffer content `temp` that fits: the
result is `temp` followed by the single-pass expansion of the rest of the line when that fits
the `MAXCOMM` bytes of `tempPlaceholder`, and a write past the buffer otherwise. -/
theorem varExpansionLoop_eq (P : List Char) :
    ∀ (fuel : Nat) (cl temp : List Char) (j : Nat), cl.length + 1 ≤ fuel + j →
      temp.length < MAXCOMM →
      varExpansionLoop P fuel cl temp (j + 1) j =
        if (temp ++ expandSpec P (cl.drop j)).length < MAXCOMM then
          Except.ok (temp ++ expandSpec P (cl.drop j))
        else Except.error Fault.bufferOverflow := by
  intro fuel
  induction fuel with
  | zero =>
    intro cl temp j h ht
    have : cl.drop j = [] := List.drop_eq_nil_of_le (by omega)
    simp [varExpansionLoop, this, expandSpec, ht]
  | succ fuel ih =>
    intro cl temp j h ht
    unfold varExpansionLoop
    by_cases hj : j < cl.length
    · have hlt : j + 1 < cl.length + 1 := by omega
      rw [if_pos hlt]
      by_cases hm : charAt cl (j + 1) = '$' ∧ charAt cl j = '$'
      · rw [if_pos hm]
        obtain ⟨hj1, hexp⟩ := varExpansionLoop_step_pair P cl j hm
        rw [hexp]
        by_cases hcap : MAXCOMM ≤ (temp ++ P).length
        · rw [if_pos hcap, if_neg]
          simp only [List.length_append] at hcap ⊢
          omega
        · rw [if_neg hcap, ih _ _ _ (by simp; omega) (by omega)]
          simp only [List.append_assoc]
      · rw [if_neg hm]
        rw [varExpansionLoop_step_copy P cl j hj hm]
        by_cases hcap : MAXCOMM ≤ (temp ++ [charAt cl j]).length
        · rw [if_pos hcap, if_neg]
          simp only [List.length_append, List.length_cons, List.length_nil] at hcap ⊢
          omega
        · rw [if_neg hcap, ih _ _ _ (by omega) (by omega)]
          simp only [List.append_assoc, List.singleton_append]
    · have hlt : ¬ (j + 1 < cl.length + 1) := by omega
      rw [if_neg hlt]
      have : cl.drop j = [] := List.drop_eq_nil_of_le (by omega)
      simp [this, expandSpec, ht]

/-- The function `varExpansion` in closed form: a pid string of more than 6 characters does not
fit `smallshPidStr`; otherwise the result is the single-pass expansion when it fits the line
buffers, and a write past them when it does not. -/
theorem varExpansion_eq (p : Int) (s : List Char) :
    varExpansion p s =
      if pidStrSize < (fmtInt p).length + 1 then Except.error Fault.pidBufferOverflow
      else if (expandSpec (fmtInt p) s).length < MAXCOMM then
        Except.ok (expandSpec (fmtInt p) s)
      else Except.error Fault.bufferOverflow := by
  unfold varExpansion
  rw [varExpansionLoop_eq _ _ _ _ _ (by omega) (by decide)]
  simp

theorem expandSpec_of_no_pair (P : List Char) :
    ∀ s : List Char, hasDollarPair s = false → expandSpec P s = s := by
  intro s
  induction s with
  | nil => intro _; simp [expandSpec]
  | cons c rest ih =>
    intro h
    rw [expandSpec_cons]
    cases rest with
    | nil => simp [expandSpec]
    | cons d rest =>
      by_cases hc : c = '$'
      · by_cases hd : d = '$'
        · subst hc; subst hd; simp [hasDollarPair] at h
        · subst hc
          have h2 : hasDollarPair (d :: rest) = false := by
            rw [hasDollarPair] at h
            · exact h
            · intro r _ hr
              simp at hr
              exact hd hr.1
          simp [hd, ih h2]
      · have h2 : hasDollarPair (d :: rest) = false := by
          rw [hasDollarPair] at h
          · exact h
          · intro r hr
            exact absurd hr hc
        simp [hc, ih h2]

/-- Within the capacities of the source (a pid string of at most 6 characters, an expansion of
at most `MAXCOMM - 1` characters) `varExpansion` yields the result of the single left-to-right
pass `expandSpec`: each non-overlapping `$$` is replaced by the decimal string of the pid, every
other character is copied and inserted text is not scanned again. -/
theorem varExpansion_within_capacity (s : List Char) (p : Int)
    (hp : (fmtInt p).length < pidStrSize)
    (hlen : (expandSpec (fmtInt p) s).length < MAXCOMM) :
    varExpansion p s = Except.ok (expandSpec (fmtInt p) s) := by
  rw [varExpansion_eq, if_neg (by omega), if_pos hlen]

theorem expandSpec_dollars (P : List Char) (tail : List Char) :
    ∀ k : Nat, (expandSpec P (List.replicate (2 * k) '$' ++ tail)).length =
      k * P.length + (expandSpec P tail).length := by
  intro k
  induction k with
  | zero => simp
  | succ k ih =>
    have e : List.replicate (2 * (k + 1)) '$' ++ tail =
        '$' :: '$' :: (List.replicate (2 * k) '$' ++ tail) := by
      have : 2 * (k + 1) = (2 * k + 1) + 1 := by ring
      rw [this, List.replicate_succ, List.replicate_succ]
      rfl
    rw [e, expandSpec, List.length_append, ih]
    ring

/-- C1: `varExpansion` does not yield the expansion on every line and pid.  The `sprintf` of
line 245 writes a pid of seven digits, with its terminator, past the 7 bytes of
`smallshPidStr`, on any line (here `echo $$`, whose expansion would be `echo 1000000`); and a
line of 2046 characters `$` and the newline, which `fgets` stores in full, has for the pid
12345 an expansion of 5116 characters, which the `strcat` calls write past the `MAXCOMM` bytes
of `tempPlaceholder`.  Within the capacities the expansion is produced: `echo $$` becomes
`echo 4242` for the pid 4242. -/
theorem varExpansion_overflows :
    varExpansion 1000000 "echo $$\n".toList = Except.error Fault.pidBufferOverflow
    ∧ expandSpec (fmtInt 1000000) "echo $$\n".toList = "echo 1000000\n".toList
    ∧ (List.replicate 2046 '$' ++ ['\n']).length < MAXCOMM
    ∧ varExpansion 12345 (List.replicate 2046 '$' ++ ['\n']) =
        Except.error Fault.bufferOverflow
    ∧ (expandSpec (fmtInt 12345) (List.replicate 2046 '$' ++ ['\n'])).length = 5116
    ∧ varExpansion 4242 "echo $$\n".toList = Except.ok "echo 4242\n".toList := by
  have hlen : (expandSpec (fmtInt 12345) (List.replicate 2046 '$' ++ ['\n'])).length = 5116 := by
    have h := expandSpec_dollars (fmtInt 12345) ['\n'] 1023
    have h5 : (fmtInt 12345).length = 5 := by decide
    rw [h5] at h
    rw [h]
    rfl
  refine ⟨by rfl, by rfl, ?_, ?_, hlen, by rfl⟩
  · rw [List.length_append, List.length_replicate]
    decide
  · rw [varExpansion_eq, if_neg (by decide), if_neg]
    rw [hlen]
    decide

/-! ### `promptUser` -/

theorem charAt_of_lt (s : List Char) (i : Nat) (h : i < s.length) : charAt s i = s[i] := by
  simp [charAt, List.getD_eq_getElem, h]

theorem parentSIGTSTP_zero : parentSIGTSTP 0 = (1, [enteringBytes]) := by decide

theorem parentSIGTSTP_one : parentSIGTSTP 1 = (0, [exitingBytes]) := by decide

theorem deliverSIGTSTP_both (n : Nat) :
    deliverSIGTSTP n 0 =
        (if n % 2 = 1 then 1 else 0,
          (List.range n).map (fun k => if k % 2 = 0 then enteringBytes else exitingBytes))
    ∧ deliverSIGTSTP n 1 =
        (if n % 2 = 1 then 0 else 1,
          (List.range n).map (fun k => if k % 2 = 0 then exitingBytes else enteringBytes)) := by
  induction n with
  | zero => simp [deliverSIGTSTP]
  | succ n ih =>
    obtain ⟨ih0, ih1⟩ := ih
    have hmap : ∀ (a b : List Char),
        (List.range (n + 1)).map (fun k => if k % 2 = 0 then a else b)
          = a :: (List.range n).map (fun k => if k % 2 = 0 then b else a) := by
      intro a b
      rw [List.range_succ_eq_map]
      simp only [List.map_cons, List.map_map]
      congr 1
      apply List.map_congr_left
      intro k _
      simp only [Function.comp]
      by_cases hk : k % 2 = 0
      · have : (k + 1) % 2 ≠ 0 := by omega
        simp [hk, this]
      · have : (k + 1) % 2 = 0 := by omega
        simp [hk, this]
    constructor
    · rw [deliverSIGTSTP, parentSIGTSTP_zero, ih1, hmap]
      by_cases hn : n % 2 = 1
      · have : ¬ ((n + 1) % 2 = 1) := by omega
        simp [hn, this]
      · have : (n + 1) % 2 = 1 := by omega
        simp [hn, this]
    · rw [deliverSIGTSTP, parentSIGTSTP_one, ih0, hmap]
      by_cases hn : n % 2 = 1
      · have : ¬ ((n + 1) % 2 = 1) := by omega
        simp [hn, this]
      · have : (n + 1) % 2 = 1 := by omega
        simp [hn, this]

/-- C8: starting from the initial value off, every stop-signal delivery flips `fgOnly` and makes
exactly one `write`: of the entering message when the flag goes off to on, of the exiting message
when it goes on to off; after `n` deliveries the flag is on iff `n` is odd, and two further
deliveries restore the value reached. -/
theorem parentSIGTSTP_toggle (n : Nat) :
    fgOnlyInit = 0
    ∧ parentSIGTSTP 0 = (1, [enteringBytes])
    ∧ parentSIGTSTP 1 = (0, [exitingBytes])
    ∧ ((deliverSIGTSTP n fgOnlyInit).1 = 0 ∨ (deliverSIGTSTP n fgOnlyInit).1 = 1)
    ∧ ((deliverSIGTSTP n fgOnlyInit).1 = 1 ↔ n % 2 = 1)
    ∧ (deliverSIGTSTP n fgOnlyInit).2
        = (List.range n).map (fun k => if k % 2 = 0 then enteringBytes else exitingBytes)
    ∧ (deliverSIGTSTP (n + 2) fgOnlyInit).1 = (deliverSIGTSTP n fgOnlyInit).1
    ∧ (deliverSIGTSTP 2 (deliverSIGTSTP n fgOnlyInit).1).1 = (deliverSIGTSTP n fgOnlyInit).1 := by
  have h0 := (deliverSIGTSTP_both n).1
  have h2 := (deliverSIGTSTP_both (n + 2)).1
  have hmod : (n + 2) % 2 = n % 2 := by omega
  refine ⟨rfl, parentSIGTSTP_zero, parentSIGTSTP_one, ?_, ?_, ?_, ?_, ?_⟩
  · rw [fgOnlyInit, h0]
    by_cases hn : n % 2 = 1 <;> simp [hn]
  · rw [fgOnlyInit, h0]
    by_cases hn : n % 2 = 1 <;> simp [hn]
  · rw [fgOnlyInit, h0]
  · rw [fgOnlyInit, h2, h0, hmod]
  · rw [fgOnlyInit, h0]
    by_cases hn : n % 2 = 1
    · simp only [hn, if_true]
      rw [(deliverSIGTSTP_both 2).2]
      simp
    · simp only [hn, if_false]
      rw [(deliverSIGTSTP_both 2).1]
      simp

/-! ### `addToBgList` -/

theorem addToBgList_of_mem_zero (p : Int) :
    ∀ L : List Int, (0 : Int) ∈ L → addToBgList p L = L.set (L.indexOf 0) p := by
  intro L
  induction L with
  | nil => intro h; simp at h
  | cons x rest ih =>
    intro h
    by_cases hx : x = 0
    · subst hx
      simp [addToBgList]
    · have hmem : (0 : Int) ∈ rest := by
        rcases List.mem_cons.mp h with h | h
        · exact absurd h.symm hx
        · exact h
      have hne : rest ≠ [] := by
        intro hr; subst hr; simp at hmem
      rw [addToBgList, if_neg hx, if_neg hne, ih hmem]
      rw [List.indexOf_cons_ne _ hx]
      simp

theorem addToBgList_of_not_mem_zero (p : Int) :
    ∀ L : List Int, L ≠ [] → (0 : Int) ∉ L → addToBgList p L = L ++ [p] := by
  intro L
  induction L with
  | nil => intro h; exact absurd rfl h
  | cons x rest ih =>
    intro _ h
    have hx : x ≠ 0 := by
      intro hx; apply h; simp [hx]
    have hrest : (0 : Int) ∉ rest := by
      intro hr; apply h; simp [hr]
    by_cases hne : rest = []
    · subst hne
      simp [addToBgList, hx]
    · rw [addToBgList, if_neg hx, if_neg hne, ih hne hrest]
      simp

theorem addToBgList_live (p : Int) (hp : p ≠ 0) :
    ∀ L : List Int, L ≠ [] →
      ∃ A B, livePids L = A ++ B ∧ livePids (addToBgList p L) = A ++ p :: B := by
  intro L
  induction L with
  | nil => intro h; exact absurd rfl h
  | cons x rest ih =>
    intro _
    by_cases hx : x = 0
    · subst hx
      refine ⟨[], livePids rest, ?_, ?_⟩
      · simp [livePids]
      · simp [addToBgList, livePids, hp]
    · by_cases hne : rest = []
      · subst hne
        refine ⟨[x], [], ?_, ?_⟩
        · simp [livePids, hx]
        · simp [addToBgList, livePids, hx, hp]
      · obtain ⟨A, B, hA, hB⟩ := ih hne
        refine ⟨x :: A, B, ?_, ?_⟩
        · simp only [livePids] at hA ⊢
          rw [List.filter_cons_of_pos (by simpa using hx), hA]
          rfl
        · rw [addToBgList, if_neg hx, if_neg hne]
          simp only [livePids] at hB ⊢
          rw [List.filter_cons_of_pos (by simpa using hx), hB]
          rfl

/-- C9: for a non-empty job list `L` and a non-zero pid `p`, `addToBgList` writes `p` into the
first cleared slot when there is one (same length, other slots unchanged), appends one slot
holding `p` otherwise, and in both cases the live PIDs afterwards are the live PIDs before with
`p` inserted, the others keeping their order. -/
theorem addToBgList_insert (L : List Int) (p : Int) (hL : L ≠ []) (hp : p ≠ 0) :
    ((0 : Int) ∈ L → addToBgList p L = L.set (L.indexOf 0) p
        ∧ (addToBgList p L).length = L.length)
    ∧ ((0 : Int) ∉ L → addToBgList p L = L ++ [p])
    ∧ ∃ A B, livePids L = A ++ B ∧ livePids (addToBgList p L) = A ++ p :: B := by
  refine ⟨?_, addToBgList_of_not_mem_zero p L hL, addToBgList_live p hp L hL⟩
  intro h
  rw [addToBgList_of_mem_zero p L h]
  simp

/-- C9 witness: inserting pid 7 into the list with slots 5, cleared, 3, cleared. -/
theorem addToBgList_insert_witness :
    addToBgList 7 [5, 0, 3, 0] = [5, 7, 3, 0] := by
  have h := (addToBgList_insert [5, 0, 3, 0] 7 (by decide) (by decide)).1 (by decide)
  rw [h.1]
  decide

/-! ### The scan of the job list in `otherCommand` -/

theorem scanBgList_events (m : WaitMacros) (w : Nat → WaitOutcome) (init : Int) :
    ∀ (L : List Int) (k : Nat),
      (scanBgList m w L k (statusBefore w init k)).events
        = ((livePids L).enumFrom k).flatMap
            (fun jp => slotEvents m jp.2 (statusBefore w init jp.1) (w jp.1)) := by
  intro L
  induction L with
  | nil => intro k; simp [scanBgList, livePids]
  | cons x rest ih =>
    intro k
    by_cases hx : x = 0
    · subst hx
      simp only [scanBgList, livePids] at ih ⊢
      simp [ih k]
    · have hlive : livePids (x :: rest) = x :: livePids rest := by
        simp [livePids, hx]
      have hnext : waitpidStatus (statusBefore w init k) (w k) = statusBefore w init (k + 1) := rfl
      rw [hlive, List.enumFrom_cons, List.flatMap_cons]
      have ih1 := ih (k + 1)
      rw [← hnext] at ih1
      simp only [scanBgList]
      rw [if_pos hx]
      cases hw : w k with
      | running =>
        rw [hw] at ih1
        have e : slotEvents m x (statusBefore w init k) WaitOutcome.running
            = [Event.waitNoHang x] := rfl
        rw [e, ← ih1]
        simp [waitpidReturn]
      | reaped st =>
        rw [hw] at ih1
        have e : slotEvents m x (statusBefore w init k) (WaitOutcome.reaped st)
            = [Event.waitNoHang x, Event.print (doneMessage x),
                Event.print (checkStatus m st)] := rfl
        rw [e, ← ih1]
        simp [waitpidReturn, hx, doneMessage, waitpidStatus]
      | failed =>
        rw [hw] at ih1
        have e : slotEvents m x (statusBefore w init k) WaitOutcome.failed
            = [Event.waitNoHang x, Event.print (doneMessage x),
                Event.print (checkStatus m (statusBefore w init k))] := rfl
        rw [e, ← ih1]
        simp [waitpidReturn, doneMessage, waitpidStatus]

theorem scanBgList_slots (m : WaitMacros) (w : Nat → WaitOutcome) :
    ∀ (L : List Int) (k : Nat) (st : Int) (i : Nat) (x : Int), L[i]? = some x →
      (scanBgList m w L k st).bgList[i]?
        = some (if x = 0 then 0 else slotAfter x (w (k + (livePids (L.take i)).length))) := by
  intro L
  induction L with
  | nil => intro k st i x h; simp at h
  | cons y rest ih =>
    intro k st i x h
    cases i with
    | zero =>
      simp at h
      subst h
      by_cases hy : y = 0
      · simp [scanBgList, hy]
      · unfold scanBgList
        rw [if_pos hy]
        cases hw : w k with
        | running => simp [waitpidReturn, slotAfter, hy, livePids, hw]
        | reaped s => simp [waitpidReturn, slotAfter, hy, livePids, hw]
        | failed => simp [waitpidReturn, slotAfter, hy, livePids, hw]
    | succ i =>
      simp only [List.getElem?_cons_succ] at h
      by_cases hy : y = 0
      · subst hy
        simp only [scanBgList]
        simp [ih k st i x h, livePids]
      · have hlen : (livePids (List.take (i + 1) (y :: rest))).length
            = (livePids (List.take i rest)).length + 1 := by
          simp [livePids, hy]
        unfold scanBgList
        rw [if_pos hy, hlen]
        have hk : k + ((livePids (List.take i rest)).length + 1)
            = (k + 1) + (livePids (List.take i rest)).length := by omega
        rw [hk]
        by_cases hr : waitpidReturn y (w k) ≠ 0
        · rw [if_pos hr]
          simp [ih (k + 1) _ i x h]
        · rw [if_neg hr]
          simp [ih (k + 1) _ i x h]

theorem scanBgList_length (m : WaitMacros) (w : Nat → WaitOutcome) :
    ∀ (L : List Int) (k : Nat) (st : Int), (scanBgList m w L k st).bgList.length = L.length := by
  intro L
  induction L with
  | nil => intro k st; simp [scanBgList]
  | cons y rest ih =>
    intro k st
    unfold scanBgList
    by_cases hy : y ≠ 0
    · rw [if_pos hy]
      by_cases hr : waitpidReturn y (w k) ≠ 0
      · rw [if_pos hr]; simp [ih]
      · rw [if_neg hr]; simp [ih]
    · rw [if_neg hy]; simp [ih]

theorem scanBgList_events_first (m : WaitMacros) (env : ParentEnv) (background spawnpid : Int)
    (bgList : List Int) :
    (scanBgList m env.noHang bgList 0 env.bgChildStatusInit).events
      <+: (otherCommandParent m env background spawnpid bgList).events := by
  unfold otherCommandParent foregroundBranch backgroundBranch
  split_ifs <;> simp [List.append_assoc]

theorem waitedPids_append (a b : List Event) :
    waitedPids (a ++ b) = waitedPids a ++ waitedPids b := by
  induction a with
  | nil => rfl
  | cons e rest ih =>
    cases e <;> simp [waitedPids, ih]

theorem waitedPids_slotEvents (m : WaitMacros) (pid prev : Int) (o : WaitOutcome) :
    waitedPids (slotEvents m pid prev o) = [pid] := by
  cases o <;> rfl

theorem waitedPids_flatMap (m : WaitMacros) (f : Nat → Int) (w : Nat → WaitOutcome) :
    ∀ (l : List Int) (k : Nat),
      waitedPids ((l.enumFrom k).flatMap (fun jp => slotEvents m jp.2 (f jp.1) (w jp.1))) = l := by
  intro l
  induction l with
  | nil => intro k; rfl
  | cons x rest ih =>
    intro k
    rw [List.enumFrom_cons, List.flatMap_cons, waitedPids_append, waitedPids_slotEvents, ih]
    rfl

theorem scanBgList_waited (m : WaitMacros) (w : Nat → WaitOutcome) (init : Int)
    (bgList : List Int) :
    waitedPids (scanBgList m w bgList 0 init).events = livePids bgList := by
  have hev := scanBgList_events m w init bgList 0
  simp only [statusBefore] at hev
  rw [hev, waitedPids_flatMap]

/-- C10: the scan in `otherCommand` keeps the length of the job list; a cleared slot stays
cleared and a live slot is kept when its child still runs and cleared when the child was reaped;
the non-blocking waits are made on exactly the live PIDs in list order; the events of the scan
are, slot by slot in list order, the wait and, for a reaped child, the message
`background pid P is done: ` followed by the decoded status of that child; and these events
come before everything else the parent does for the new command. -/
theorem scanBgList_reports (m : WaitMacros) (env : ParentEnv) (background spawnpid : Int)
    (bgList : List Int) :
    (scanBgList m env.noHang bgList 0 env.bgChildStatusInit).bgList.length = bgList.length
    ∧ (∀ (i : Nat) (x : Int), bgList[i]? = some x →
        (scanBgList m env.noHang bgList 0 env.bgChildStatusInit).bgList[i]?
          = some (if x = 0 then 0
                  else slotAfter x (env.noHang (livePids (bgList.take i)).length)))
    ∧ waitedPids (scanBgList m env.noHang bgList 0 env.bgChildStatusInit).events
        = livePids bgList
    ∧ (scanBgList m env.noHang bgList 0 env.bgChildStatusInit).events
        = ((livePids bgList).enumFrom 0).flatMap
            (fun jp => slotEvents m jp.2
              (statusBefore env.noHang env.bgChildStatusInit jp.1) (env.noHang jp.1))
    ∧ (scanBgList m env.noHang bgList 0 env.bgChildStatusInit).events
        <+: (otherCommandParent m env background spawnpid bgList).events := by
  have hev := scanBgList_events m env.noHang env.bgChildStatusInit bgList 0
  simp only [statusBefore] at hev
  refine ⟨scanBgList_length m env.noHang bgList 0 _, ?_, ?_, hev,
    scanBgList_events_first m env background spawnpid bgList⟩
  · intro i x h
    have := scanBgList_slots m env.noHang bgList 0 env.bgChildStatusInit i x h
    simpa using this
  · exact scanBgList_waited m env.noHang env.bgChildStatusInit bgList

/-- C10 witness: in the list with slots 5, cleared, 3, where the child 5 was reaped and the child 3
still runs, the scan clears the first slot. -/
theorem scanBgList_reports_witness :
    (scanBgList linuxWaitMacros (exampleEnv 0).noHang [5, 0, 3] 0
        (exampleEnv 0).bgChildStatusInit).bgList[0]? = some 0 :=
  (scanBgList_reports linuxWaitMacros (exampleEnv 0) 1 9 [5, 0, 3]).2.1 0 5 rfl

/-! ### The two paths of the parent in `otherCommand` -/

theorem blockingWaits_append (a b : List Event) :
    blockingWaits (a ++ b) = blockingWaits a ++ blockingWaits b := by
  induction a with
  | nil => rfl
  | cons e rest ih =>
    cases e <;> simp [blockingWaits, ih]

theorem scanBgList_event_form (m : WaitMacros) (w : Nat → WaitOutcome) :
    ∀ (L : List Int) (k : Nat) (st : Int) (e : Event), e ∈ (scanBgList m w L k st).events →
      (∃ p, e = Event.waitNoHang p) ∨ (∃ p, e = Event.print (doneMessage p))
        ∨ (∃ s, e = Event.print (checkStatus m s)) := by
  intro L
  induction L with
  | nil => intro k st e h; simp [scanBgList] at h
  | cons y rest ih =>
    intro k st e h
    unfold scanBgList at h
    by_cases hy : y ≠ 0
    · rw [if_pos hy] at h
      by_cases hr : waitpidReturn y (w k) ≠ 0
      · rw [if_pos hr] at h
        simp only [List.cons_append, List.nil_append, List.mem_cons] at h
        rcases h with h | h | h | h
        · exact Or.inl ⟨y, h⟩
        · exact Or.inr (Or.inl ⟨y, h⟩)
        · exact Or.inr (Or.inr ⟨_, h⟩)
        · exact ih _ _ e h
      · rw [if_neg hr] at h
        simp only [List.mem_cons] at h
        rcases h with h | h
        · exact Or.inl ⟨y, h⟩
        · exact ih _ _ e h
    · rw [if_neg hy] at h
      exact ih _ _ e h

theorem announcement_ne_doneMessage (q p : Int) : announcement q ≠ doneMessage p := by
  intro h
  have e1 : announcement q = ("background pid is ".toList ++ fmtInt q) ++ ['\n'] := rfl
  have e2 : doneMessage p = ("background pid ".toList ++ fmtInt p ++ " is done:".toList) ++ [' '] := by
    simp [doneMessage]
  have h1 : (announcement q).getLast? = some '\n' := by
    rw [e1, List.getLast?_concat]
  have h2 : (doneMessage p).getLast? = some ' ' := by
    rw [e2, List.getLast?_concat]
  rw [h, h2] at h1
  exact absurd h1 (by decide)

theorem checkStatus_head (m : WaitMacros) (s : Int) :
    (checkStatus m s).head? = some 'e' ∨ (checkStatus m s).head? = some 't'
      ∨ (checkStatus m s).head? = some '0' := by
  unfold checkStatus
  split_ifs
  · left; rfl
  · right; left; rfl
  · right; right; rfl

theorem announcement_ne_checkStatus (q : Int) (m : WaitMacros) (s : Int) :
    announcement q ≠ checkStatus m s := by
  intro h
  have h1 : (announcement q).head? = some 'b' := rfl
  rw [h] at h1
  rcases checkStatus_head m s with h2 | h2 | h2 <;> rw [h2] at h1 <;> exact absurd h1 (by decide)

theorem scanBgList_no_blocking (m : WaitMacros) (w : Nat → WaitOutcome) (L : List Int)
    (k : Nat) (st : Int) : blockingWaits (scanBgList m w L k st).events = [] := by
  induction L generalizing k st with
  | nil => simp [scanBgList, blockingWaits]
  | cons y rest ih =>
    unfold scanBgList
    split_ifs <;> simp [blockingWaits, ih]

theorem scanBgList_no_announcement (m : WaitMacros) (w : Nat → WaitOutcome) (L : List Int)
    (k : Nat) (st : Int) (q : Int) :
    Event.print (announcement q) ∉ (scanBgList m w L k st).events := by
  intro h
  rcases scanBgList_event_form m w L k st _ h with ⟨p, hp⟩ | ⟨p, hp⟩ | ⟨s, hs⟩
  · cases hp
  · injection hp with hp
    exact announcement_ne_doneMessage q p hp
  · injection hs with hs
    exact announcement_ne_checkStatus q m s hs

theorem scanBgList_no_insert (m : WaitMacros) (w : Nat → WaitOutcome) (L : List Int)
    (k : Nat) (st : Int) (q : Int) :
    Event.addToBgList q ∉ (scanBgList m w L k st).events := by
  intro h
  rcases scanBgList_event_form m w L k st _ h with ⟨p, hp⟩ | ⟨p, hp⟩ | ⟨s, hs⟩
  · cases hp
  · cases hp
  · cases hs

/-- For a command whose background flag is 0 or 1: when `fgOnly` reads as one value `fg` during
the launch, the parent takes exactly one of two paths after the scan.  With the background flag
1 and `fg` off it prints
`background pid is P`, makes one non-blocking wait on `P`, then reports completion if that wait
returned non-zero and calls `addToBgList` for `P` otherwise, with no blocking wait.  With the flag
0 or `fg` on it makes exactly one blocking wait, on `P`, prints no announcement and never calls
`addToBgList`, and leaves the scanned list as it is. -/
theorem otherCommandParent_paths (m : WaitMacros) (env : ParentEnv)
    (background spawnpid fg : Int) (bgList : List Int)
    (hb : background = 0 ∨ background = 1) (hfg : fg = 0 ∨ fg = 1)
    (h739 : env.fgOnlyAt739 = fg) (h759 : env.fgOnlyAt759 = fg) (h771 : env.fgOnlyAt771 = fg) :
    (((background = 1 ∧ fg = 0) ∧ ¬ (background = 0 ∨ fg = 1))
      ∨ (¬ (background = 1 ∧ fg = 0) ∧ (background = 0 ∨ fg = 1)))
    ∧ (background = 1 ∧ fg = 0 →
        (otherCommandParent m env background spawnpid bgList).events
          = (scanBgList m env.noHang bgList 0 env.bgChildStatusInit).events
            ++ [Event.print (announcement spawnpid), Event.waitNoHang spawnpid]
            ++ (if waitpidReturn spawnpid
                  (env.noHang (scanBgList m env.noHang bgList 0 env.bgChildStatusInit).calls) ≠ 0
                then
                  [Event.print (doneMessage spawnpid),
                   Event.print (checkStatus m
                    (waitpidStatus
                      (scanBgList m env.noHang bgList 0 env.bgChildStatusInit).bgChildStatus
                      (env.noHang
                        (scanBgList m env.noHang bgList 0 env.bgChildStatusInit).calls)))]
                else [Event.addToBgList spawnpid])
        ∧ (otherCommandParent m env background spawnpid bgList).bgList
          = (if waitpidReturn spawnpid
                (env.noHang (scanBgList m env.noHang bgList 0 env.bgChildStatusInit).calls) ≠ 0
             then (scanBgList m env.noHang bgList 0 env.bgChildStatusInit).bgList
             else addToBgList spawnpid
                (scanBgList m env.noHang bgList 0 env.bgChildStatusInit).bgList)
        ∧ waitedPids (otherCommandParent m env background spawnpid bgList).events
          = livePids bgList ++ [spawnpid]
        ∧ blockingWaits (otherCommandParent m env background spawnpid bgList).events = [])
    ∧ (background = 0 ∨ fg = 1 →
        (otherCommandParent m env background spawnpid bgList).events
          = (scanBgList m env.noHang bgList 0 env.bgChildStatusInit).events
            ++ [Event.waitBlocking spawnpid]
            ++ (if waitpidStatus env.childStatusInit env.blocking = 2 then
                  [Event.print ("terminated by signal 2\n".toList)]
                else [])
            ++ (if fg = 1 then [Event.restoreMask] else [])
        ∧ (otherCommandParent m env background spawnpid bgList).bgList
          = (scanBgList m env.noHang bgList 0 env.bgChildStatusInit).bgList
        ∧ blockingWaits (otherCommandParent m env background spawnpid bgList).events
          = [spawnpid]
        ∧ waitedPids (otherCommandParent m env background spawnpid bgList).events
          = livePids bgList
        ∧ (∀ q, Event.print (announcement q)
            ∉ (otherCommandParent m env background spawnpid bgList).events)
        ∧ (∀ q, Event.addToBgList q
            ∉ (otherCommandParent m env background spawnpid bgList).events)) := by
  have hwait := scanBgList_waited m env.noHang env.bgChildStatusInit bgList
  refine ⟨?_, ?_, ?_⟩
  · rcases hb with hb | hb <;> rcases hfg with hfg | hfg <;> subst hb <;> subst hfg <;> simp
  · rintro ⟨hb1, hf0⟩
    have hnot : ¬ (background = 0 ∨ env.fgOnlyAt759 = 1) := by
      rw [h759, hb1, hf0]; simp
    have hyes : background = 1 ∧ env.fgOnlyAt739 = 0 := by
      rw [h739]; exact ⟨hb1, hf0⟩
    unfold otherCommandParent foregroundBranch backgroundBranch
    rw [if_pos hyes, if_neg hnot]
    by_cases hr : waitpidReturn spawnpid
        (env.noHang (scanBgList m env.noHang bgList 0 env.bgChildStatusInit).calls) ≠ 0
    · rw [if_pos hr, if_pos hr, if_pos hr]
      refine ⟨by simp [announcement, doneMessage], rfl, ?_, ?_⟩
      · simp [waitedPids_append, hwait, waitedPids]
      · simp [blockingWaits_append, scanBgList_no_blocking, blockingWaits]
    · rw [if_neg hr, if_neg hr, if_neg hr]
      refine ⟨by simp [announcement], rfl, ?_, ?_⟩
      · simp [waitedPids_append, hwait, waitedPids]
      · simp [blockingWaits_append, scanBgList_no_blocking, blockingWaits]
  · intro hcond
    have hyes : background = 0 ∨ env.fgOnlyAt759 = 1 := by
      rw [h759]; exact hcond
    have hnot : ¬ (background = 1 ∧ env.fgOnlyAt739 = 0) := by
      rw [h739]
      rintro ⟨hb1, hf0⟩
      rcases hcond with h | h
      · rw [hb1] at h; exact absurd h (by decide)
      · rw [hf0] at h; exact absurd h (by decide)
    have hev : (otherCommandParent m env background spawnpid bgList).events
          = (scanBgList m env.noHang bgList 0 env.bgChildStatusInit).events
            ++ [Event.waitBlocking spawnpid]
            ++ (if waitpidStatus env.childStatusInit env.blocking = 2 then
                  [Event.print ("terminated by signal 2\n".toList)]
                else [])
            ++ (if fg = 1 then [Event.restoreMask] else []) := by
      unfold otherCommandParent foregroundBranch backgroundBranch
      rw [if_neg hnot, if_pos hyes, h771]
      by_cases h2 : waitpidStatus env.childStatusInit env.blocking = 2
      · rw [if_pos h2, if_pos h2, h2]
        rfl
      · rw [if_neg h2, if_neg h2]
    refine ⟨hev, ?_, ?_, ?_, ?_, ?_⟩
    · unfold otherCommandParent foregroundBranch backgroundBranch
      rw [if_neg hnot, if_pos hyes]
    · rw [hev]
      simp only [blockingWaits_append, scanBgList_no_blocking]
      split_ifs <;> simp [blockingWaits]
    · rw [hev]
      simp only [waitedPids_append, hwait]
      split_ifs <;> simp [waitedPids]
    · intro q hq
      rw [hev] at hq
      simp only [List.mem_append] at hq
      rcases hq with ((hq | hq) | hq) | hq
      · exact scanBgList_no_announcement m env.noHang bgList 0 _ q hq
      · simp at hq
      · split_ifs at hq
        · simp only [List.mem_singleton] at hq
          injection hq with hq
          have h1 : (announcement q).head? = some 'b' := rfl
          rw [hq] at h1
          exact absurd h1 (by decide)
        · simp at hq
      · split_ifs at hq <;> simp at hq
    · intro q hq
      rw [hev] at hq
      simp only [List.mem_append] at hq
      rcases hq with ((hq | hq) | hq) | hq
      · exact scanBgList_no_insert m env.noHang bgList 0 _ q hq
      · simp at hq
      · split_ifs at hq <;> simp at hq
      · split_ifs at hq <;> simp at hq

/-- With the background flag set and the mode on, the parent of pid 9 makes its one blocking
wait on 9, here with the job list holding 5, a cleared slot and 3. -/
theorem otherCommandParent_paths_witness :
    blockingWaits (otherCommandParent linuxWaitMacros (exampleEnv 1) 1 9 [5, 0, 3]).events = [9] :=
  ((otherCommandParent_paths linuxWaitMacros (exampleEnv 1) 1 9 1 [5, 0, 3]
    (Or.inr rfl) (Or.inr rfl) rfl rfl rfl).2.2 (Or.inr rfl)).2.2.1

/-- The tests of lines 739 and 759 compare the background field with 1 and with 0: for any
other value, with the mode off, neither holds and the parent does nothing after the scan. -/
theorem otherCommandParent_flag_other (m : WaitMacros) (env : ParentEnv)
    (background spawnpid : Int) (bgList : List Int)
    (h0 : background ≠ 0) (h1 : background ≠ 1) (hfg : env.fgOnlyAt759 ≠ 1) :
    otherCommandParent m env background spawnpid bgList
      = { bgList := (scanBgList m env.noHang bgList 0 env.bgChildStatusInit).bgList
          events := (scanBgList m env.noHang bgList 0 env.bgChildStatusInit).events
          childStatus := env.childStatusInit } := by
  have hnot1 : ¬ (background = 1 ∧ env.fgOnlyAt739 = 0) := fun h => h1 h.1
  have hnot2 : ¬ (background = 0 ∨ env.fgOnlyAt759 = 1) := by
    rintro (h | h)
    · exact h0 h
    · exact hfg h
  unfold otherCommandParent foregroundBranch backgroundBranch
  rw [if_neg hnot1, if_neg hnot2]

/-- C7: the parent does not always take one of the two paths.  The third redirection of the line
`cat < a < b < c` is stored at `redirection[2]`, outside the array; the member that follows the
array in the struct is `background`, so the command handed to `otherCommand` holds there what
was stored, a value that is neither 0 nor 1 (here 1431675552, the low half of the address
0x55555555a2a0; `otherCommandParent_flag_other` covers every such value).  With the mode off the parent of
the child 9 then does nothing after the scan: no announcement, no wait on 9 of either kind, no
call of `addToBgList`, and the status returned is the one `childStatus` had before.  With the
flag 1 it takes the background path and with the flag 0 the foreground path. -/
theorem otherCommandParent_neither_path :
    processComm "cat < a < b < c\n".toList
      = Except.error (Fault.redirectionStore 2 "< c".toList)
    ∧ ¬ ((1431675552 : Int) = 1 ∧ (exampleLaunch 0 0).parent.fgOnlyAt739 = 0)
    ∧ ¬ ((1431675552 : Int) = 0 ∨ (exampleLaunch 0 0).parent.fgOnlyAt759 = 1)
    ∧ otherCommandParent linuxWaitMacros (exampleLaunch 0 0).parent 1431675552 9 [0]
      = { bgList := [0], events := [], childStatus := 0 }
    ∧ otherCommandParent linuxWaitMacros (exampleLaunch 0 0).parent 1 9 [0]
      = { bgList := [9]
          events := [Event.print (announcement 9), Event.waitNoHang 9, Event.addToBgList 9]
          childStatus := 0 }
    ∧ otherCommandParent linuxWaitMacros (exampleLaunch 0 0).parent 0 9 [0]
      = { bgList := [0], events := [Event.waitBlocking 9], childStatus := 0 } :=
  ⟨by rfl, by decide, by decide, by decide, by decide, by decide⟩

/-! ### The marking loop of `processComm` -/

theorem take_succ_set (l : List Char) (k : Nat) (a : Char) (h : k < l.length) :
    (l.set k a).take (k + 1) = l.take k ++ [a] := by
  rw [List.set_eq_take_append_cons_drop, if_pos h]
  rw [List.take_append_eq_append_take]
  simp [List.length_take, Nat.min_eq_left (Nat.le_of_lt h)]

theorem take_succ_get (l : List Char) (k : Nat) (h : k < l.length) :
    l.take (k + 1) = l.take k ++ [l[k]] := by
  rw [List.take_succ]
  simp [h]

theorem markRedirectLoop_eq :
    ∀ (fuel : Nat) (cl : List Char) (j : Nat), cl.length ≤ fuel + (j + 1) →
      markRedirectLoop fuel cl (j + 1) j
        = cl.take (j + 1)
          ++ markAux (decide (charAt cl j = '<' ∨ charAt cl j = '>')) (cl.drop (j + 1)) := by
  intro fuel
  induction fuel with
  | zero =>
    intro cl j h
    have hd : cl.drop (j + 1) = [] := List.drop_eq_nil_of_le (by omega)
    have ht : cl.take (j + 1) = cl := List.take_of_length_le (by omega)
    simp [markRedirectLoop, hd, ht, markAux]
  | succ fuel ih =>
    intro cl j h
    unfold markRedirectLoop
    by_cases hlt : j + 1 < cl.length
    · rw [if_pos hlt]
      have hdrop : cl.drop (j + 1) = cl[j + 1] :: cl.drop (j + 2) :=
        List.drop_eq_getElem_cons hlt
      by_cases hop : charAt cl j = '<' ∨ charAt cl j = '>'
      · rw [if_pos hop, ih _ _ (by simp; omega)]
        have h1 : charAt (cl.set (j + 1) ';') (j + 1) = ';' := by
          simp [charAt, List.getD_eq_getElem, hlt]
        rw [h1, hdrop]
        simp only [hop, decide_True, markAux]
        have h2 : decide ((';' : Char) = '<' ∨ (';' : Char) = '>') = false := by decide
        rw [h2, List.drop_set_of_lt _ _ (by omega : j + 1 < j + 1 + 1)]
        rw [take_succ_set _ _ _ hlt]
        simp only [List.append_assoc, List.singleton_append]
      · rw [if_neg hop, ih _ _ (by omega)]
        rw [charAt_of_lt cl (j + 1) hlt, hdrop]
        simp only [hop, decide_False, markAux]
        rw [take_succ_get _ _ hlt]
        simp only [List.append_assoc, List.singleton_append]
    · rw [if_neg hlt]
      have hd : cl.drop (j + 1) = [] := List.drop_eq_nil_of_le (by omega)
      have ht : cl.take (j + 1) = cl := List.take_of_length_le (by omega)
      simp [hd, ht, markAux]

theorem markRedirectLoop_start (cl : List Char) :
    markRedirectLoop cl.length cl 1 0 = markAux false cl := by
  cases cl with
  | nil => simp [markRedirectLoop, markAux]
  | cons c rest =>
    have := markRedirectLoop_eq (c :: rest).length (c :: rest) 0 (by simp)
    simp only [Nat.zero_add] at this
    rw [this]
    simp [charAt, markAux]

theorem markAux_append_plain (A B : List Char) (h : ∀ c ∈ A, ¬ (c = '<' ∨ c = '>')) :
    markAux false (A ++ B) = A ++ markAux false B := by
  induction A with
  | nil => rfl
  | cons a rest ih =>
    have ha : ¬ (a = '<' ∨ a = '>') := h a (List.mem_cons_self _ _)
    have hrest : ∀ c ∈ rest, ¬ (c = '<' ∨ c = '>') :=
      fun c hc => h c (List.mem_cons_of_mem _ hc)
    have e : markAux false (a :: (rest ++ B)) = a :: markAux false (rest ++ B) := by
      simp only [markAux, ha, decide_False]
    rw [List.cons_append, e, ih hrest, List.cons_append]

theorem markAux_operator (op d : Char) (rest : List Char) (h : op = '<' ∨ op = '>') :
    markAux false (op :: d :: rest) = op :: ';' :: markAux false rest := by
  simp only [markAux, h, decide_True]

theorem word_no_operator {w : List Char} (hw : IsWord w) :
    ∀ c ∈ w, ¬ (c = '<' ∨ c = '>') := by
  intro c hc h
  have := hw.2 c hc
  rcases h with h | h
  · exact this.2.1 h
  · exact this.2.2 h

theorem replicate_space_no_operator (n : Nat) :
    ∀ c ∈ List.replicate n ' ', ¬ (c = '<' ∨ c = '>') := by
  intro c hc
  rw [List.eq_of_mem_replicate hc]
  decide

theorem markAux_renderItems (tail : List Char) :
    ∀ items : List (Nat × Item), (∀ x ∈ items, x.2.WellFormed) →
      markAux false (renderItems items ++ tail) = renderItemsMarked items ++ markAux false tail := by
  intro items
  induction items with
  | nil => intro _; rfl
  | cons x rest ih =>
    intro h
    obtain ⟨n, it⟩ := x
    have hrest : ∀ y ∈ rest, y.2.WellFormed := fun y hy => h y (List.mem_cons_of_mem _ hy)
    have hit : it.WellFormed := h (n, it) (List.mem_cons_self _ _)
    cases it with
    | arg w =>
      simp only [renderItems, renderItemsMarked, Item.text, Item.marked, List.append_assoc]
      rw [markAux_append_plain _ _ (replicate_space_no_operator _),
        markAux_append_plain _ _ (word_no_operator hit), ih hrest]
    | redirect op p =>
      obtain ⟨hop, hp⟩ := hit
      simp only [renderItems, renderItemsMarked, Item.text, Item.marked, List.append_assoc,
        List.cons_append]
      rw [markAux_append_plain _ _ (replicate_space_no_operator _), markAux_operator _ _ _ hop,
        markAux_append_plain _ _ (word_no_operator hp), ih hrest]

theorem markAux_renderLine (lead trail : Nat) (name : List Char) (items : List (Nat × Item))
    (hname : IsWord name) (hitems : ∀ x ∈ items, x.2.WellFormed) :
    markAux false (renderLine lead name items trail)
      = List.replicate lead ' ' ++ name ++ renderItemsMarked items
          ++ List.replicate trail ' ' ++ ['\n'] := by
  unfold renderLine
  simp only [List.append_assoc]
  rw [markAux_append_plain _ _ (replicate_space_no_operator _),
    markAux_append_plain _ _ (word_no_operator hname), markAux_renderItems _ _ hitems,
    markAux_append_plain _ _ (replicate_space_no_operator _)]
  rfl

/-! ### The background test of `processComm` -/

theorem backgroundCheck_snoc3 (A : List Char) (a b c : Char) :
    backgroundCheck (A ++ [a, b, c])
      = if b = '&' ∧ a = ' ' then Except.ok (1, A ++ [a]) else Except.ok (0, A ++ [a, b, c]) := by
  have hlen : (A ++ [a, b, c]).length = A.length + 3 := by simp
  have h2 : (A ++ [a, b, c]).length - 2 = A.length + 1 := by omega
  have h3 : (A ++ [a, b, c]).length - 3 = A.length := by omega
  have hb : charAt (A ++ [a, b, c]) (A.length + 1) = b := by
    unfold charAt
    rw [List.getD_eq_getElem?_getD, List.getElem?_append_right (by omega)]
    simp
  have ha : charAt (A ++ [a, b, c]) A.length = a := by
    unfold charAt
    rw [List.getD_eq_getElem?_getD, List.getElem?_append_right (by omega)]
    simp
  have ht : (A ++ [a, b, c]).take (A.length + 1) = A ++ [a] := by
    rw [List.take_append_eq_append_take]
    simp
  unfold backgroundCheck
  rw [h2, h3, hb, ha, ht]
  have n2 : ¬ ((A ++ [a, b, c]).length < 2) := by omega
  have n3 : ¬ ((A ++ [a, b, c]).length < 3) := by omega
  rw [if_neg n2]
  by_cases hb' : b = '&'
  · rw [if_pos hb', if_neg n3]
    by_cases ha' : a = ' '
    · rw [if_pos ha', if_pos ⟨hb', ha'⟩]
    · rw [if_neg ha', if_neg (fun h => ha' h.2)]
  · rw [if_neg hb', if_neg (fun h => hb' h.1)]

theorem list_last_two (w : List Char) (hw : w ≠ []) :
    (∃ z, w = [z]) ∨ (∃ v y z, w = v ++ [y, z]) := by
  induction w with
  | nil => exact absurd rfl hw
  | cons a rest ih =>
    cases rest with
    | nil => exact Or.inl ⟨a, rfl⟩
    | cons b rest2 =>
      right
      rcases ih (by simp) with ⟨z, hz⟩ | ⟨v, y, z, hv⟩
      · exact ⟨[], a, z, by rw [hz]; rfl⟩
      · exact ⟨a :: v, y, z, by rw [hv]; rfl⟩

theorem backgroundCheck_body (X body : List Char) (hne : body ≠ [])
    (hsp : ∀ c ∈ body, c ≠ ' ') :
    backgroundCheck (X ++ [' '] ++ body ++ ['\n'])
      = if body = ['&'] then Except.ok (1, X ++ [' '])
        else Except.ok (0, X ++ [' '] ++ body ++ ['\n']) := by
  rcases list_last_two body hne with ⟨z, hz⟩ | ⟨v, y, z, hv⟩
  · subst hz
    have e : X ++ [' '] ++ [z] ++ ['\n'] = X ++ [' ', z, '\n'] := by simp
    rw [e, backgroundCheck_snoc3]
    by_cases hz : z = '&'
    · subst hz; simp
    · have : ¬ ([z] = ['&']) := by simpa using hz
      rw [if_neg this, if_neg (fun h => hz h.1)]
  · subst hv
    have e : X ++ [' '] ++ (v ++ [y, z]) ++ ['\n'] = (X ++ [' '] ++ v) ++ [y, z, '\n'] := by simp
    have hy : y ≠ ' ' := hsp y (by simp)
    have hnot : ¬ (v ++ [y, z] = ['&']) := by
      intro h
      have := congrArg List.length h
      simp at this
    rw [if_neg hnot, e, backgroundCheck_snoc3, if_neg (fun h => hy h.2)]

theorem backgroundCheck_trailing (P : List Char) (t : Nat) (hP : P ≠ []) :
    backgroundCheck (P ++ List.replicate (t + 1) ' ' ++ ['\n'])
      = Except.ok (0, P ++ List.replicate (t + 1) ' ' ++ ['\n']) := by
  have hne : P ++ List.replicate t ' ' ≠ [] := by simp [hP]
  obtain ⟨Q, a, hQ⟩ : ∃ Q a, P ++ List.replicate t ' ' = Q ++ [a] :=
    ⟨_, _, (List.dropLast_append_getLast hne).symm⟩
  have e : P ++ List.replicate (t + 1) ' ' ++ ['\n'] = Q ++ [a, ' ', '\n'] := by
    rw [List.replicate_succ', ← List.append_assoc, hQ]
    simp
  rw [e, backgroundCheck_snoc3, if_neg (fun h => absurd h.1 (by decide))]

/-! ### Tokens of a line made of words -/

theorem dropWhile_append_all {p : Char → Bool} (D X : List Char) (h : ∀ c ∈ D, p c = true) :
    (D ++ X).dropWhile p = X.dropWhile p := by
  induction D with
  | nil => rfl
  | cons d rest ih =>
    have hd : p d = true := h d (List.mem_cons_self _ _)
    rw [List.cons_append, List.dropWhile_cons_of_pos hd]
    exact ih (fun c hc => h c (List.mem_cons_of_mem _ hc))

theorem takeWhile_append_stop {p : Char → Bool} (T R : List Char) (hT : ∀ c ∈ T, p c = true)
    (hR : R = [] ∨ ∃ d R2, R = d :: R2 ∧ p d = false) :
    (T ++ R).takeWhile p = T ∧ (T ++ R).dropWhile p = R := by
  induction T with
  | nil =>
    rcases hR with hR | ⟨d, R2, hR, hd⟩
    · subst hR; simp
    · subst hR; simp [List.takeWhile, List.dropWhile, hd]
  | cons t rest ih =>
    have ht : p t = true := hT t (List.mem_cons_self _ _)
    have := ih (fun c hc => hT c (List.mem_cons_of_mem _ hc))
    rw [List.cons_append, List.takeWhile_cons_of_pos ht, List.dropWhile_cons_of_pos ht]
    exact ⟨by rw [this.1], this.2⟩

theorem strtok_r_token (D T R : List Char) (hD : ∀ c ∈ D, c ∈ delimComm)
    (hne : T ≠ []) (hT : ∀ c ∈ T, c ∉ delimComm) (hR : StartsDelim R) :
    strtok_r delimComm (D ++ T ++ R) = some (T, R.tail) := by
  unfold strtok_r
  rw [List.append_assoc, dropWhile_append_all D _ (fun c hc => by simpa using hD c hc)]
  cases T with
  | nil => exact absurd rfl hne
  | cons t rest =>
    have ht : t ∉ delimComm := hT t (List.mem_cons_self _ _)
    have hdw : ((t :: rest) ++ R).dropWhile (fun c => decide (c ∈ delimComm))
        = t :: (rest ++ R) := by
      rw [List.cons_append, List.dropWhile_cons_of_neg (by simpa using ht)]
    rw [hdw]
    have hsplit := takeWhile_append_stop (p := fun d => !decide (d ∈ delimComm)) (t :: rest) R
      (fun c hc => by simpa using hT c hc)
      (by
        rcases hR with hR | ⟨d, R2, hR, hd⟩
        · exact Or.inl hR
        · exact Or.inr ⟨d, R2, hR, by simpa using hd⟩)
    simp only [List.cons_append] at hsplit
    simp only [hsplit.1, hsplit.2]

theorem strtok_r_none (D : List Char) (hD : ∀ c ∈ D, c ∈ delimComm) :
    strtok_r delimComm D = none := by
  unfold strtok_r
  have : D.dropWhile (fun c => decide (c ∈ delimComm)) = [] := by
    have := dropWhile_append_all (p := fun c => decide (c ∈ delimComm)) D []
      (fun c hc => by simpa using hD c hc)
    simpa using this
  rw [this]

theorem strtok_r_tail (R : List Char) (hR : StartsDelim R) :
    strtok_r delimComm R.tail = strtok_r delimComm R := by
  rcases hR with hR | ⟨d, R2, hR, hd⟩
  · subst hR; rfl
  · subst hR
    unfold strtok_r
    rw [List.tail_cons, List.dropWhile_cons_of_pos (by simpa using hd)]

theorem word_not_delim {w : List Char} (hw : IsWord w) : ∀ c ∈ w, c ∉ delimComm :=
  fun c hc => (hw.2 c hc).1

theorem marked_token {it : Item} (h : it.WellFormed) :
    it.marked ≠ [] ∧ ∀ c ∈ it.marked, c ∉ delimComm := by
  cases it with
  | arg w => exact ⟨h.1, word_not_delim h⟩
  | redirect op p =>
    obtain ⟨hop, hp⟩ := h
    refine ⟨by simp [Item.marked], ?_⟩
    intro c hc
    simp only [Item.marked, List.mem_cons] at hc
    rcases hc with hc | hc | hc
    · rcases hop with hop | hop <;> rw [hc, hop] <;> decide
    · rw [hc]; decide
    · exact word_not_delim hp c hc

theorem replicate_space_delim (n : Nat) : ∀ c ∈ List.replicate n ' ', c ∈ delimComm := by
  intro c hc
  rw [List.eq_of_mem_replicate hc]
  decide

theorem startsDelim_of_all (tail : List Char) (h : ∀ c ∈ tail, c ∈ delimComm) :
    StartsDelim tail := by
  cases tail with
  | nil => exact Or.inl rfl
  | cons d rest => exact Or.inr ⟨d, rest, rfl, h d (List.mem_cons_self _ _)⟩

theorem startsDelim_renderItemsMarked (items : List (Nat × Item)) (tail : List Char)
    (h : ∀ c ∈ tail, c ∈ delimComm) : StartsDelim (renderItemsMarked items ++ tail) := by
  cases items with
  | nil => exact startsDelim_of_all tail h
  | cons x rest =>
    obtain ⟨n, it⟩ := x
    refine Or.inr ⟨' ', List.replicate n ' ' ++ it.marked ++ renderItemsMarked rest ++ tail, ?_,
      by decide⟩
    simp [renderItemsMarked, List.replicate_succ]

/-- The loop of `processComm` over the tokens of well-formed items whose stores stay inside the
arrays `arguments`, `extendArgs` and `redirection`. -/
theorem tokenLoop_items (room : Bool) (tail : List Char) (htail : ∀ c ∈ tail, c ∈ delimComm) :
    ∀ (items : List (Nat × Item)) (st : ParseState) (fuel : Nat),
      (∀ x ∈ items, x.2.WellFormed) → items.length + 1 ≤ fuel →
      st.iArguments + (argWords items).length ≤ MAXARG →
      st.iExtendArgs + (argWords items).length ≤ MAXARG + 2 →
      st.iRedirections + countRedirects items ≤ 2 →
      tokenLoop room fuel (strtok_r delimComm (renderItemsMarked items ++ tail)) st
        = Except.ok (stateAfter st items) := by
  intro items
  induction items with
  | nil =>
    intro st fuel _ hfuel _ _ _
    have hnone : strtok_r delimComm (renderItemsMarked [] ++ tail) = none := by
      simpa [renderItemsMarked] using strtok_r_none tail htail
    rw [hnone]
    cases fuel with
    | zero => simp at hfuel
    | succ f =>
      simp [tokenLoop, stateAfter, argWords, redirStores, countRedirects]
  | cons x rest ih =>
    intro st fuel hwf hfuel ha he hr
    obtain ⟨n, it⟩ := x
    have hrest : ∀ y ∈ rest, y.2.WellFormed := fun y hy => hwf y (List.mem_cons_of_mem _ hy)
    have hit : it.WellFormed := hwf (n, it) (List.mem_cons_self _ _)
    cases fuel with
    | zero => simp at hfuel
    | succ f =>
      have hf : rest.length + 1 ≤ f := by simp at hfuel; omega
      have htok : strtok_r delimComm (renderItemsMarked ((n, it) :: rest) ++ tail)
          = some (it.marked, (renderItemsMarked rest ++ tail).tail) := by
        have e : renderItemsMarked ((n, it) :: rest) ++ tail
            = List.replicate (n + 1) ' ' ++ it.marked ++ (renderItemsMarked rest ++ tail) := by
          simp [renderItemsMarked]
        rw [e]
        exact strtok_r_token _ _ _ (replicate_space_delim _) (marked_token hit).1
          (marked_token hit).2 (startsDelim_renderItemsMarked rest tail htail)
      rw [htok]
      have hnext := strtok_r_tail _ (startsDelim_renderItemsMarked rest tail htail)
      cases it with
      | arg w =>
        have hw : IsWord w := hit
        have hhead : ¬ (charAt w 0 = '<' ∨ charAt w 0 = '>') := by
          cases w with
          | nil => exact absurd rfl hw.1
          | cons a w2 =>
            have := hw.2 a (List.mem_cons_self _ _)
            simp only [charAt, List.getD_cons_zero]
            rintro (h | h)
            · exact this.2.1 h
            · exact this.2.2 h
        have ha2 : st.iArguments + ((argWords rest).length + 1) ≤ MAXARG := by
          simpa [argWords] using ha
        have he2 : st.iExtendArgs + ((argWords rest).length + 1) ≤ MAXARG + 2 := by
          simpa [argWords] using he
        have hr2 : st.iRedirections + countRedirects rest ≤ 2 := by
          simpa [countRedirects] using hr
        simp only [Item.marked, tokenLoop]
        rw [if_neg hhead, if_neg (by omega), if_neg (by omega), hnext,
          ih { st with
              arguments := st.arguments ++ [w]
              extendArgs := st.extendArgs ++ [w]
              iArguments := st.iArguments + 1
              iExtendArgs := st.iExtendArgs + 1 } f hrest hf
            (by show st.iArguments + 1 + _ ≤ _; omega)
            (by show st.iExtendArgs + 1 + _ ≤ _; omega) hr2]
        simp [stateAfter, argWords, redirStores, countRedirects, Nat.add_assoc, Nat.add_comm]
      | redirect op p =>
        obtain ⟨hop, hp⟩ := hit
        have hhead : charAt (op :: ';' :: p) 0 = '<' ∨ charAt (op :: ';' :: p) 0 = '>' := by
          simpa [charAt] using hop
        have hlen : ¬ ((op :: ';' :: p).length < 2 ∧
            (renderItemsMarked rest ++ tail).tail = [] ∧ room = false) := by simp
        have ha2 : st.iArguments + (argWords rest).length ≤ MAXARG := by
          simpa [argWords] using ha
        have he2 : st.iExtendArgs + (argWords rest).length ≤ MAXARG + 2 := by
          simpa [argWords] using he
        have hr2 : st.iRedirections + (countRedirects rest + 1) ≤ 2 := by
          simpa [countRedirects] using hr
        have hglue : gluedToken (op :: ';' :: p) (renderItemsMarked rest ++ tail).tail
            = op :: ' ' :: p := by
          simp [gluedToken]
        simp only [Item.marked, tokenLoop]
        rw [if_pos hhead, if_neg hlen, if_neg (by omega), hnext, hglue,
          ih { st with
              redirection := st.redirection ++ [(st.iRedirections, op :: ' ' :: p)]
              iRedirections := st.iRedirections + 1 } f hrest hf ha2 he2
            (by show st.iRedirections + 1 + _ ≤ _; omega)]
        simp [stateAfter, argWords, redirStores, countRedirects, Nat.add_assoc, Nat.add_comm]

theorem renderItemsMarked_append (A B : List (Nat × Item)) :
    renderItemsMarked (A ++ B) = renderItemsMarked A ++ renderItemsMarked B := by
  induction A with
  | nil => rfl
  | cons x rest ih =>
    obtain ⟨n, it⟩ := x
    simp [renderItemsMarked, ih]

theorem renderItemsMarked_length (items : List (Nat × Item))
    (h : ∀ x ∈ items, x.2.WellFormed) :
    2 * items.length ≤ (renderItemsMarked items).length := by
  induction items with
  | nil => simp
  | cons x rest ih =>
    obtain ⟨n, it⟩ := x
    have hrest := ih (fun y hy => h y (List.mem_cons_of_mem _ hy))
    have hit : it.marked ≠ [] := (marked_token (h (n, it) (List.mem_cons_self _ _))).1
    have hpos : 0 < it.marked.length := List.length_pos.mpr hit
    simp only [renderItemsMarked, List.length_append, List.length_replicate, List.length_cons]
    omega

theorem endsWithMarker_concat (init : List (Nat × Item)) (n : Nat) (last : Item) (trail : Nat) :
    endsWithMarker (init ++ [(n, last)]) trail
      = decide (last = Item.arg "&".toList ∧ trail = 0) := by
  unfold endsWithMarker
  rw [List.getLast?_concat]
  cases last with
  | arg w =>
    by_cases hw : w = "&".toList
    · subst hw; simp
    · simp [hw]
  | redirect op p => simp

theorem backgroundCheck_marked (lead trail : Nat) (name : List Char)
    (items : List (Nat × Item)) (hname : IsWord name) (hne : items ≠ [])
    (hitems : ∀ x ∈ items, x.2.WellFormed) :
    ∃ tailD : List Char, (∀ c ∈ tailD, c ∈ delimComm) ∧
      backgroundCheck (List.replicate lead ' ' ++ name ++ renderItemsMarked items
          ++ List.replicate trail ' ' ++ ['\n'])
        = Except.ok (if endsWithMarker items trail then 1 else 0,
            List.replicate lead ' ' ++ name
              ++ renderItemsMarked (effectiveItems items trail) ++ tailD) := by
  obtain ⟨init, x, hx⟩ : ∃ init x, items = init ++ [x] :=
    ⟨_, _, (List.dropLast_append_getLast hne).symm⟩
  obtain ⟨n, last⟩ := x
  subst hx
  have hlast : last.WellFormed := hitems (n, last) (by simp)
  cases trail with
  | succ t =>
    have hm : endsWithMarker (init ++ [(n, last)]) (t + 1) = false := by
      rw [endsWithMarker_concat]; simp
    refine ⟨List.replicate (t + 1) ' ' ++ ['\n'], ?_, ?_⟩
    · intro c hc
      rcases List.mem_append.mp hc with hc | hc
      · exact replicate_space_delim _ c hc
      · simp only [List.mem_singleton] at hc
        rw [hc]; decide
    · have hP : List.replicate lead ' ' ++ name ++ renderItemsMarked (init ++ [(n, last)]) ≠ [] := by
        simp [hname.1]
      rw [backgroundCheck_trailing _ t hP]
      simp [effectiveItems, hm]
  | zero =>
    have hbody := marked_token hlast
    have hsp : ∀ c ∈ last.marked, c ≠ ' ' := by
      intro c hc h
      exact hbody.2 c hc (by rw [h]; decide)
    have e : List.replicate lead ' ' ++ name ++ renderItemsMarked (init ++ [(n, last)])
          ++ List.replicate 0 ' ' ++ ['\n']
        = (List.replicate lead ' ' ++ name ++ renderItemsMarked init ++ List.replicate n ' ')
          ++ [' '] ++ last.marked ++ ['\n'] := by
      rw [renderItemsMarked_append]
      simp [renderItemsMarked, List.replicate_succ']
    rw [e, backgroundCheck_body _ _ hbody.1 hsp]
    have hiff : last.marked = ['&'] ↔ last = Item.arg "&".toList := by
      cases last with
      | arg w =>
        simp only [Item.marked, Item.arg.injEq]
        exact Iff.rfl
      | redirect op p =>
        simp [Item.marked]
    by_cases hmk : last = Item.arg "&".toList
    · have hm : endsWithMarker (init ++ [(n, last)]) 0 = true := by
        rw [endsWithMarker_concat]
        exact decide_eq_true ⟨hmk, rfl⟩
      refine ⟨List.replicate (n + 1) ' ', replicate_space_delim _, ?_⟩
      rw [if_pos (hiff.mpr hmk)]
      simp [effectiveItems, hm, List.replicate_succ']
    · have hm : endsWithMarker (init ++ [(n, last)]) 0 = false := by
        rw [endsWithMarker_concat]
        exact decide_eq_false (fun h => hmk h.1)
      refine ⟨['\n'], fun c hc => by simp only [List.mem_singleton] at hc; rw [hc]; decide, ?_⟩
      rw [if_neg (fun h => hmk (hiff.mp h))]
      simp [effectiveItems, hm, renderItemsMarked_append, renderItemsMarked,
        List.replicate_succ']

theorem backgroundCheck_marked_lone (lead trail : Nat) (name : List Char)
    (hname : IsWord name) (hamp : name ≠ "&".toList) :
    ∃ tailD : List Char, (∀ c ∈ tailD, c ∈ delimComm) ∧
      backgroundCheck (List.replicate lead ' ' ++ name ++ renderItemsMarked []
          ++ List.replicate trail ' ' ++ ['\n'])
        = Except.ok (if endsWithMarker [] trail then 1 else 0,
            List.replicate lead ' ' ++ name
              ++ renderItemsMarked (effectiveItems [] trail) ++ tailD) := by
  have hm : endsWithMarker [] trail = false := rfl
  have heff : effectiveItems [] trail = [] := rfl
  have hnl : ∀ c ∈ ['\n'], c ∈ delimComm := by
    intro c hc
    simp only [List.mem_singleton] at hc
    rw [hc]; decide
  rw [hm, heff]
  simp only [renderItemsMarked, List.append_nil]
  cases trail with
  | succ t =>
    refine ⟨List.replicate (t + 1) ' ' ++ ['\n'], ?_, ?_⟩
    · intro c hc
      rcases List.mem_append.mp hc with hc | hc
      · exact replicate_space_delim _ c hc
      · exact hnl c hc
    · have hP : List.replicate lead ' ' ++ name ≠ [] := by simp [hname.1]
      rw [backgroundCheck_trailing _ t hP]
      simp
  | zero =>
    refine ⟨['\n'], hnl, ?_⟩
    simp only [List.replicate_zero, List.append_nil]
    rcases list_last_two name hname.1 with ⟨z, hz⟩ | ⟨v, y, z, hv⟩
    · subst hz
      have hz : z ≠ '&' := by
        intro h; apply hamp; rw [h]; rfl
      cases lead with
      | zero =>
        simp [backgroundCheck, charAt, hz]
      | succ l =>
        have e : List.replicate (l + 1) ' ' ++ [z] ++ ['\n']
            = List.replicate l ' ' ++ [' ', z, '\n'] := by
          simp [List.replicate_succ']
        rw [e, backgroundCheck_snoc3, if_neg (fun h => hz h.1)]
        simp
    · subst hv
      have hy : y ≠ ' ' := by
        intro h
        exact (hname.2 y (by simp)).1 (by rw [h]; decide)
      have e : List.replicate lead ' ' ++ (v ++ [y, z]) ++ ['\n']
          = (List.replicate lead ' ' ++ v) ++ [y, z, '\n'] := by simp
      rw [e, backgroundCheck_snoc3, if_neg (fun h => hy h.2)]
      simp

theorem effectiveItems_wf (items : List (Nat × Item)) (trail : Nat)
    (h : ∀ x ∈ items, x.2.WellFormed) : ∀ x ∈ effectiveItems items trail, x.2.WellFormed := by
  intro x hx
  unfold effectiveItems at hx
  split_ifs at hx
  · exact h x (List.mem_of_mem_dropLast hx)
  · exact h x hx

/-- The command that `processComm` builds for a line made of words whose plain words fit
`arguments[MAXARG]` and whose redirections fit `redirection[2]`. -/
theorem processComm_renderLine (lead trail : Nat) (name : List Char)
    (items : List (Nat × Item)) (hname : IsWord name)
    (hlone : items = [] → name ≠ "&".toList)
    (hitems : ∀ x ∈ items, x.2.WellFormed)
    (hargs : (argWords (effectiveItems items trail)).length ≤ MAXARG)
    (hredir : countRedirects (effectiveItems items trail) ≤ 2) :
    processComm (renderLine lead name items trail)
      = Except.ok
          { command := name
            arguments := argWords (effectiveItems items trail)
            extendArgs := name :: argWords (effectiveItems items trail)
            redirection := redirStores 0 (effectiveItems items trail)
            background := if endsWithMarker items trail then 1 else 0 } := by
  obtain ⟨tailD, htail, hbg⟩ : ∃ tailD : List Char, (∀ c ∈ tailD, c ∈ delimComm) ∧
      backgroundCheck (List.replicate lead ' ' ++ name ++ renderItemsMarked items
          ++ List.replicate trail ' ' ++ ['\n'])
        = Except.ok (if endsWithMarker items trail then 1 else 0,
            List.replicate lead ' ' ++ name
              ++ renderItemsMarked (effectiveItems items trail) ++ tailD) := by
    by_cases hne : items = []
    · subst hne
      exact backgroundCheck_marked_lone lead trail name hname (hlone rfl)
    · exact backgroundCheck_marked lead trail name items hname hne hitems
  have hwf := effectiveItems_wf items trail hitems
  have hstart := startsDelim_renderItemsMarked (effectiveItems items trail) tailD htail
  have htok : strtok_r delimComm (List.replicate lead ' ' ++ name
        ++ renderItemsMarked (effectiveItems items trail) ++ tailD)
      = some (name, (renderItemsMarked (effectiveItems items trail) ++ tailD).tail) := by
    rw [List.append_assoc]
    exact strtok_r_token _ _ _ (replicate_space_delim _) hname.1 (word_not_delim hname) hstart
  have hfuel : (effectiveItems items trail).length + 1
      ≤ (renderItemsMarked (effectiveItems items trail) ++ tailD).tail.length + 1 := by
    have := renderItemsMarked_length _ hwf
    simp only [List.length_tail, List.length_append]
    omega
  unfold processComm
  rw [markRedirectLoop_start, markAux_renderLine lead trail name items hname hitems, hbg]
  simp only [htok]
  rw [strtok_r_tail _ hstart, tokenLoop_items _ tailD htail _ _ _ hwf hfuel
    (by show 0 + _ ≤ _; omega) (by show 1 + _ ≤ _; omega) (by show 0 + _ ≤ _; omega)]
  have hlast : ¬ (MAXARG + 2 ≤ 1 + (argWords (effectiveItems items trail)).length) := by
    omega
  simp [stateAfter, hlast]

/-! ### Command name, exec vector, redirections and background flag -/

theorem argWords_append (A B : List (Nat × Item)) :
    argWords (A ++ B) = argWords A ++ argWords B := by
  induction A with
  | nil => rfl
  | cons x rest ih =>
    obtain ⟨n, it⟩ := x
    cases it <;> simp [argWords, ih]

theorem mem_argWords_of_mem (w : List Char) (n : Nat) :
    ∀ L : List (Nat × Item), (n, Item.arg w) ∈ L → w ∈ argWords L := by
  intro L
  induction L with
  | nil => intro h; simp at h
  | cons x rest ih =>
    intro h
    obtain ⟨k, it⟩ := x
    rcases List.mem_cons.mp h with h1 | h1
    · injection h1 with h2 h3
      subst h3
      simp [argWords]
    · cases it with
      | arg v => simp [argWords, ih h1]
      | redirect op p => simp [argWords, ih h1]

theorem mem_redirStores (n : Nat) (op : Char) (path : List Char) (post : List (Nat × Item)) :
    ∀ (pre : List (Nat × Item)) (start : Nat),
      (start + countRedirects pre, op :: ' ' :: path)
        ∈ redirStores start (pre ++ (n, Item.redirect op path) :: post) := by
  intro pre
  induction pre with
  | nil => intro start; simp [redirStores, countRedirects]
  | cons x rest ih =>
    intro start
    obtain ⟨k, it⟩ := x
    cases it with
    | arg v => simpa [redirStores, countRedirects] using ih start
    | redirect o p =>
      have := ih (start + 1)
      simp only [List.cons_append, redirStores, countRedirects, List.mem_cons]
      right
      have e : start + (countRedirects rest + 1) = start + 1 + countRedirects rest := by omega
      rw [e]
      exact this

theorem endsWithMarker_append_cons (pre post : List (Nat × Item)) (x : Nat × Item)
    (trail : Nat) (hpost : post ≠ []) :
    endsWithMarker (pre ++ x :: post) trail = endsWithMarker post trail := by
  unfold endsWithMarker
  have h1 : (pre ++ x :: post).getLast? = post.getLast? := by
    rw [List.getLast?_append]
    have : (x :: post).getLast? = post.getLast? := by
      cases post with
      | nil => exact absurd rfl hpost
      | cons y rest => simp [List.getLast?_cons_cons]
    rw [this]
    cases hq : post.getLast? with
    | none =>
      rw [List.getLast?_eq_none_iff] at hq
      exact absurd hq hpost
    | some v => rfl
  rw [h1]

theorem effectiveItems_redirect (pre post : List (Nat × Item)) (n : Nat) (op : Char)
    (path : List Char) (trail : Nat) :
    effectiveItems (pre ++ (n, Item.redirect op path) :: post) trail
      = pre ++ (n, Item.redirect op path) :: effectiveItems post trail := by
  by_cases hpost : post = []
  · subst hpost
    have hm : endsWithMarker (pre ++ [(n, Item.redirect op path)]) trail = false := by
      rw [endsWithMarker_concat]
      exact decide_eq_false (fun h => by cases h.1)
    simp [effectiveItems, hm, endsWithMarker]
  · unfold effectiveItems
    rw [endsWithMarker_append_cons _ _ _ _ hpost]
    by_cases hm : endsWithMarker post trail = true
    · rw [if_pos hm, if_pos hm, List.dropLast_append_of_ne_nil _ (by simp),
        List.dropLast_cons_of_ne_nil hpost]
    · rw [if_neg hm, if_neg hm]

theorem mem_delimRedirect_iff (c : Char) : c ∈ delimRedirect ↔ c ∈ delimComm := by
  simp [delimRedirect, delimComm]
  tauto

theorem procRedirect_operator_path (op : Char) (path : List Char)
    (hop : op = '<' ∨ op = '>') (hpath : IsWord path) :
    procRedirect (op :: ' ' :: path) = Except.ok (directionOf op, some path) := by
  have hop' : op ≠ ' ' := by
    rcases hop with h | h <;> rw [h] <;> decide
  have h1 : strtok_r " ".toList (op :: ' ' :: path) = some ([op], path) := by
    simp [strtok_r, List.dropWhile, List.takeWhile, hop']
  have h2 : strtok_r delimRedirect path = some (path, []) := by
    unfold strtok_r
    cases path with
    | nil => exact absurd rfl hpath.1
    | cons a rest =>
      have ha : a ∉ delimRedirect := by
        rw [mem_delimRedirect_iff]
        exact (hpath.2 a (List.mem_cons_self _ _)).1
      rw [List.dropWhile_cons_of_neg (by simpa using ha)]
      have hsplit := takeWhile_append_stop (p := fun d => !decide (d ∈ delimRedirect))
        (a :: rest) [] (fun c hc => by
          have := (hpath.2 c hc).1
          rw [← mem_delimRedirect_iff] at this
          simpa using this) (Or.inl rfl)
      simp only [List.append_nil] at hsplit
      simp only [hsplit.1, hsplit.2, List.tail_nil]
  unfold procRedirect
  rw [h1]
  simp only [h2, Option.map_some', charAt, List.getD_cons_zero, directionOf]
  split_ifs <;> rfl

theorem backgroundCheck_values (cl cl2 : List Char) (b : Int)
    (h : backgroundCheck cl = Except.ok (b, cl2)) : b = 0 ∨ b = 1 := by
  unfold backgroundCheck at h
  split_ifs at h <;> injection h with h <;> injection h with h1 h2
  · exact Or.inr h1.symm
  · exact Or.inl h1.symm
  · exact Or.inl h1.symm

/-- Whatever the line, a command built by `processComm` has the background flag 0 or 1. -/
theorem processComm_background_values (line : List Char) (c : commandLine)
    (h : processComm line = Except.ok c) : c.background = 0 ∨ c.background = 1 := by
  unfold processComm at h
  split at h
  · cases h
  · rename_i b cl hb
    split at h
    · cases h
    · split at h
      · cases h
      · split at h
        · cases h
        · injection h with h
          rw [← h]
          exact backgroundCheck_values _ _ _ hb

theorem startsDelim_renderItemsMarked_append (items : List (Nat × Item)) (X : List Char)
    (hX : StartsDelim X) : StartsDelim (renderItemsMarked items ++ X) := by
  cases items with
  | nil => exact hX
  | cons x rest =>
    obtain ⟨n, it⟩ := x
    refine Or.inr ⟨' ', List.replicate n ' ' ++ it.marked ++ renderItemsMarked rest ++ X, ?_,
      by decide⟩
    simp [renderItemsMarked, List.replicate_succ]

theorem stateAfter_nil (st : ParseState) : stateAfter st [] = st := by
  cases st
  simp [stateAfter, argWords, redirStores, countRedirects]

theorem stateAfter_cons_arg (st : ParseState) (n : Nat) (w : List Char)
    (rest : List (Nat × Item)) :
    stateAfter st ((n, Item.arg w) :: rest)
      = stateAfter { st with
          arguments := st.arguments ++ [w]
          extendArgs := st.extendArgs ++ [w]
          iArguments := st.iArguments + 1
          iExtendArgs := st.iExtendArgs + 1 } rest := by
  simp [stateAfter, argWords, redirStores, countRedirects, Nat.add_assoc, Nat.add_comm]

theorem stateAfter_cons_redirect (st : ParseState) (n : Nat) (op : Char) (p : List Char)
    (rest : List (Nat × Item)) :
    stateAfter st ((n, Item.redirect op p) :: rest)
      = stateAfter { st with
          redirection := st.redirection ++ [(st.iRedirections, op :: ' ' :: p)]
          iRedirections := st.iRedirections + 1 } rest := by
  simp [stateAfter, argWords, redirStores, countRedirects, Nat.add_assoc, Nat.add_comm]

/-- The loop of `processComm` over the tokens of well-formed items whose stores stay inside the
arrays, followed by further text: it goes on with that text from the state after the items. -/
theorem tokenLoop_items_then (room : Bool) (X : List Char) (hX : StartsDelim X) :
    ∀ (items : List (Nat × Item)) (st : ParseState) (fuel : Nat),
      (∀ x ∈ items, x.2.WellFormed) →
      st.iArguments + (argWords items).length ≤ MAXARG →
      st.iExtendArgs + (argWords items).length ≤ MAXARG + 2 →
      st.iRedirections + countRedirects items ≤ 2 →
      tokenLoop room (items.length + fuel)
          (strtok_r delimComm (renderItemsMarked items ++ X)) st
        = tokenLoop room fuel (strtok_r delimComm X) (stateAfter st items) := by
  intro items
  induction items with
  | nil =>
    intro st fuel _ _ _ _
    rw [stateAfter_nil]
    simp [renderItemsMarked]
  | cons x rest ih =>
    intro st fuel hwf ha he hr
    obtain ⟨n, it⟩ := x
    have hrest : ∀ y ∈ rest, y.2.WellFormed := fun y hy => hwf y (List.mem_cons_of_mem _ hy)
    have hit : it.WellFormed := hwf (n, it) (List.mem_cons_self _ _)
    have hlen : ((n, it) :: rest).length + fuel = (rest.length + fuel) + 1 := by
      simp only [List.length_cons]; omega
    rw [hlen]
    have hstart := startsDelim_renderItemsMarked_append rest X hX
    have htok : strtok_r delimComm (renderItemsMarked ((n, it) :: rest) ++ X)
        = some (it.marked, (renderItemsMarked rest ++ X).tail) := by
      have e : renderItemsMarked ((n, it) :: rest) ++ X
          = List.replicate (n + 1) ' ' ++ it.marked ++ (renderItemsMarked rest ++ X) := by
        simp [renderItemsMarked]
      rw [e]
      exact strtok_r_token _ _ _ (replicate_space_delim _) (marked_token hit).1
        (marked_token hit).2 hstart
    rw [htok]
    have hnext := strtok_r_tail _ hstart
    cases it with
    | arg w =>
      have hw : IsWord w := hit
      have hhead : ¬ (charAt w 0 = '<' ∨ charAt w 0 = '>') := by
        cases w with
        | nil => exact absurd rfl hw.1
        | cons a w2 =>
          have := hw.2 a (List.mem_cons_self _ _)
          simp only [charAt, List.getD_cons_zero]
          rintro (h | h)
          · exact this.2.1 h
          · exact this.2.2 h
      have ha2 : st.iArguments + ((argWords rest).length + 1) ≤ MAXARG := by
        simpa [argWords] using ha
      have he2 : st.iExtendArgs + ((argWords rest).length + 1) ≤ MAXARG + 2 := by
        simpa [argWords] using he
      have hr2 : st.iRedirections + countRedirects rest ≤ 2 := by
        simpa [countRedirects] using hr
      simp only [Item.marked, tokenLoop]
      rw [if_neg hhead, if_neg (by omega), if_neg (by omega), hnext, stateAfter_cons_arg]
      exact ih _ fuel hrest (by show st.iArguments + 1 + _ ≤ _; omega)
        (by show st.iExtendArgs + 1 + _ ≤ _; omega) hr2
    | redirect op p =>
      obtain ⟨hop, hp⟩ := hit
      have hhead : charAt (op :: ';' :: p) 0 = '<' ∨ charAt (op :: ';' :: p) 0 = '>' := by
        simpa [charAt] using hop
      have hlen2 : ¬ ((op :: ';' :: p).length < 2 ∧
          (renderItemsMarked rest ++ X).tail = [] ∧ room = false) := by simp
      have ha2 : st.iArguments + (argWords rest).length ≤ MAXARG := by
        simpa [argWords] using ha
      have he2 : st.iExtendArgs + (argWords rest).length ≤ MAXARG + 2 := by
        simpa [argWords] using he
      have hr2 : st.iRedirections + (countRedirects rest + 1) ≤ 2 := by
        simpa [countRedirects] using hr
      have hglue : gluedToken (op :: ';' :: p) (renderItemsMarked rest ++ X).tail
          = op :: ' ' :: p := by
        simp [gluedToken]
      simp only [Item.marked, tokenLoop]
      rw [if_pos hhead, if_neg hlen2, if_neg (by omega), hnext, hglue, stateAfter_cons_redirect]
      exact ih _ fuel hrest ha2 he2 (by show st.iRedirections + 1 + _ ≤ _; omega)

/-- A line made of words whose kept plain words number more than `MAXARG`: the store of the
word number `MAXARG + 1` uses the index `MAXARG`, outside `arguments`. -/
theorem processComm_arguments_overflow (lead trail n : Nat) (name w : List Char)
    (items pre post : List (Nat × Item)) (hname : IsWord name)
    (hlone : items = [] → name ≠ "&".toList)
    (hitems : ∀ x ∈ items, x.2.WellFormed)
    (hsplit : effectiveItems items trail = pre ++ (n, Item.arg w) :: post)
    (hfull : (argWords pre).length = MAXARG)
    (hredir : countRedirects pre ≤ 2) :
    processComm (renderLine lead name items trail)
      = Except.error (Fault.argumentsStore MAXARG) := by
  obtain ⟨tailD, htail, hbg⟩ : ∃ tailD : List Char, (∀ c ∈ tailD, c ∈ delimComm) ∧
      backgroundCheck (List.replicate lead ' ' ++ name ++ renderItemsMarked items
          ++ List.replicate trail ' ' ++ ['\n'])
        = Except.ok (if endsWithMarker items trail then 1 else 0,
            List.replicate lead ' ' ++ name
              ++ renderItemsMarked (effectiveItems items trail) ++ tailD) := by
    by_cases hne : items = []
    · subst hne
      exact backgroundCheck_marked_lone lead trail name hname (hlone rfl)
    · exact backgroundCheck_marked lead trail name items hname hne hitems
  have hwf := effectiveItems_wf items trail hitems
  have hstart := startsDelim_renderItemsMarked (effectiveItems items trail) tailD htail
  have htok : strtok_r delimComm (List.replicate lead ' ' ++ name
        ++ renderItemsMarked (effectiveItems items trail) ++ tailD)
      = some (name, (renderItemsMarked (effectiveItems items trail) ++ tailD).tail) := by
    rw [List.append_assoc]
    exact strtok_r_token _ _ _ (replicate_space_delim _) hname.1 (word_not_delim hname) hstart
  have hfuel : (effectiveItems items trail).length + 1
      ≤ (renderItemsMarked (effectiveItems items trail) ++ tailD).tail.length + 1 := by
    have := renderItemsMarked_length _ hwf
    simp only [List.length_tail, List.length_append]
    omega
  have hwfpre : ∀ x ∈ pre, x.2.WellFormed := by
    intro x hx
    exact hwf x (by rw [hsplit]; exact List.mem_append_left _ hx)
  have hwfw : IsWord w :=
    hwf (n, Item.arg w) (by rw [hsplit]; exact List.mem_append_right _ (List.mem_cons_self _ _))
  have hwfpost : ∀ x ∈ post, x.2.WellFormed := by
    intro x hx
    exact hwf x (by
      rw [hsplit]; exact List.mem_append_right _ (List.mem_cons_of_mem _ hx))
  have hlenE : (effectiveItems items trail).length = pre.length + (post.length + 1) := by
    rw [hsplit]; simp
  obtain ⟨k, hk⟩ : ∃ k, (renderItemsMarked (effectiveItems items trail) ++ tailD).tail.length + 1
      = pre.length + (k + 1) :=
    ⟨(renderItemsMarked (effectiveItems items trail) ++ tailD).tail.length - pre.length,
      by omega⟩
  have hX : StartsDelim (renderItemsMarked ((n, Item.arg w) :: post) ++ tailD) :=
    startsDelim_renderItemsMarked _ tailD htail
  have hstartpost := startsDelim_renderItemsMarked post tailD htail
  have htokw : strtok_r delimComm (renderItemsMarked ((n, Item.arg w) :: post) ++ tailD)
      = some (w, (renderItemsMarked post ++ tailD).tail) := by
    have e : renderItemsMarked ((n, Item.arg w) :: post) ++ tailD
        = List.replicate (n + 1) ' ' ++ w ++ (renderItemsMarked post ++ tailD) := by
      simp [renderItemsMarked, Item.marked]
    rw [e]
    exact strtok_r_token _ _ _ (replicate_space_delim _) hwfw.1 (word_not_delim hwfw) hstartpost
  have hhead : ¬ (charAt w 0 = '<' ∨ charAt w 0 = '>') := by
    cases w with
    | nil => exact absurd rfl hwfw.1
    | cons a w2 =>
      have := hwfw.2 a (List.mem_cons_self _ _)
      simp only [charAt, List.getD_cons_zero]
      rintro (h | h)
      · exact this.2.1 h
      · exact this.2.2 h
  unfold processComm
  rw [markRedirectLoop_start, markAux_renderLine lead trail name items hname hitems, hbg]
  simp only [htok]
  rw [strtok_r_tail _ hstart, hk, hsplit, renderItemsMarked_append, List.append_assoc,
    tokenLoop_items_then _ _ hX pre _ (k + 1) hwfpre (by show 0 + _ ≤ _; omega)
      (by show 1 + _ ≤ _; omega) (by show 0 + _ ≤ _; omega), htokw]
  simp only [tokenLoop]
  rw [if_neg hhead, if_pos (by show MAXARG ≤ 0 + _; omega)]
  simp [stateAfter, hfull]

theorem argWords_replicate_arg (w : List Char) (n : Nat) :
    ∀ k : Nat, argWords (List.replicate k (n, Item.arg w)) = List.replicate k w := by
  intro k
  induction k with
  | zero => rfl
  | succ k ih => simp [List.replicate_succ, argWords, ih]

theorem countRedirects_replicate_arg (w : List Char) (n : Nat) :
    ∀ k : Nat, countRedirects (List.replicate k (n, Item.arg w)) = 0 := by
  intro k
  induction k with
  | zero => rfl
  | succ k ih => simp [List.replicate_succ, countRedirects, ih]

theorem renderItems_replicate_arg (w : List Char) :
    ∀ k : Nat, (renderItems (List.replicate k (0, Item.arg w))).length = k * (w.length + 1) := by
  intro k
  induction k with
  | zero => simp [renderItems]
  | succ k ih =>
    simp only [List.replicate_succ, renderItems, List.length_append, ih, Item.text,
      List.length_replicate, List.length_cons, List.length_nil]
    ring

/-- The line `a`, then 513 times a space and the word `b`, then the newline (1028 characters):
the store of the last word uses the index 512, outside `arguments[MAXARG]`. -/
theorem processComm_word_513 :
    (renderLine 0 "a".toList (List.replicate 513 (0, Item.arg "b".toList)) 0).length = 1028
    ∧ processComm (renderLine 0 "a".toList (List.replicate 513 (0, Item.arg "b".toList)) 0)
      = Except.error (Fault.argumentsStore 512) := by
  have hitems : List.replicate 513 ((0 : Nat), Item.arg "b".toList)
      = List.replicate 512 (0, Item.arg "b".toList) ++ [(0, Item.arg "b".toList)] := by
    rw [← List.replicate_succ']
  have hmarker : endsWithMarker (List.replicate 513 ((0 : Nat), Item.arg "b".toList)) 0
      = false := by
    rw [hitems]
    unfold endsWithMarker
    rw [List.getLast?_concat]
    rfl
  refine ⟨?_, ?_⟩
  · unfold renderLine
    simp only [List.length_append, List.length_replicate, renderItems_replicate_arg]
    rfl
  · refine processComm_arguments_overflow 0 0 0 "a".toList "b".toList _
      (List.replicate 512 (0, Item.arg "b".toList)) [] (by decide) (by simp) ?_ ?_ ?_ ?_
    · intro x hx
      rw [List.eq_of_mem_replicate hx]
      decide
    · simp only [effectiveItems, hmarker]
      exact hitems
    · rw [argWords_replicate_arg, List.length_replicate]
      rfl
    · rw [countRedirects_replicate_arg]
      omega

/-- A line that ends, without a newline, with an operator character: the write `token[1] = ' '`
replaces the terminator of the line inside the zero-filled buffer, and the string stored is the
operator and a space. -/
theorem processComm_operator_at_end :
    processComm "cat <".toList
      = Except.ok
          { command := "cat".toList, arguments := [], extendArgs := ["cat".toList],
            redirection := [(0, "< ".toList)], background := 0 } := by
  rfl

/-- A third redirection before the background marker: the store at `redirection[2]` is outside
the array (in the struct it lands on `background`, which line 325 has set before). -/
theorem processComm_marker_after_third_redirection :
    processComm "cat < a < b < c &\n".toList
      = Except.error (Fault.redirectionStore 2 "< c".toList) := by
  rfl

/-- C3 counterexample: in the line `echo<TAB>a` the first whitespace-delimited token is `echo`
and the second is `a`, yet `processComm` takes the whole text `echo<TAB>a` as the command name
and as the only element of the exec vector, because a tab is not among the delimiters. -/
theorem processComm_tab_not_delimiter :
    whitespaceTokens "echo\ta\n".toList = ["echo".toList, "a".toList]
    ∧ processComm "echo\ta\n".toList
        = Except.ok
            { command := "echo\ta".toList, arguments := [], extendArgs := ["echo\ta".toList],
              redirection := [], background := 0 } :=
  ⟨by decide, by rfl⟩

/-- The line `echo a,b`: `processComm` splits the second word at the comma. -/
theorem processComm_splits_at_comma :
    whitespaceTokens "echo a,b\n".toList = ["echo".toList, "a,b".toList]
    ∧ processComm "echo a,b\n".toList
        = Except.ok
            { command := "echo".toList, arguments := ["a".toList, "b".toList],
              extendArgs := ["echo".toList, "a".toList, "b".toList],
              redirection := [], background := 0 } :=
  ⟨by decide, by rfl⟩

/-- C3 (amended): for a line written as a command word, then items each preceded by one or more
spaces (a plain word, or an operator character, one space and a path word), then optional spaces
and the newline, where words are free of space, newline, comma, apostrophe, `<` and `>`
(a tab is an ordinary character of a word), the line whose only word is `&` excepted:
when the plain words kept number at most `MAXARG` and the redirections at most 2 (the sizes of
the arrays `arguments` and `redirection`), `processComm` yields a command whose name is the
command word and whose exec vector is the name followed by, in order, exactly the plain words, a
closing background marker left out. -/
theorem processComm_exec_vector (lead trail : Nat) (name : List Char)
    (items : List (Nat × Item)) (hname : IsWord name)
    (hlone : items = [] → name ≠ "&".toList)
    (hitems : ∀ x ∈ items, x.2.WellFormed)
    (hargs : (argWords (effectiveItems items trail)).length ≤ MAXARG)
    (hredir : countRedirects (effectiveItems items trail) ≤ 2) :
    ∃ c, processComm (renderLine lead name items trail) = Except.ok c
      ∧ c.command = name
      ∧ c.arguments = argWords (effectiveItems items trail)
      ∧ c.extendArgs = name :: argWords (effectiveItems items trail) :=
  ⟨_, processComm_renderLine lead trail name items hname hlone hitems hargs hredir,
    rfl, rfl, rfl⟩

/-- C3 witness: the line `sort -r < in.txt extra &` has the exec vector `sort`, `-r`, `extra`. -/
theorem processComm_exec_vector_witness :
    ∃ c, processComm "sort -r < in.txt extra &\n".toList = Except.ok c
      ∧ c.command = "sort".toList
      ∧ c.arguments = ["-r".toList, "extra".toList]
      ∧ c.extendArgs = ["sort".toList, "-r".toList, "extra".toList] :=
  processComm_exec_vector 0 0 "sort".toList
    [(0, Item.arg "-r".toList), (0, Item.redirect '<' "in.txt".toList),
     (0, Item.arg "extra".toList), (0, Item.arg "&".toList)]
    (by decide) (by decide) (by decide) (by decide) (by decide)

/-- C4: in `cat <  f`, with two spaces after the operator, the token `<` is followed by the
token `f`, yet `processComm` stores the redirection string `< ` from which `procRedirect`
extracts no path (a `NULL`, which it hands to `open`), and `f` is a positional argument; with
one space, in `cat < f`, the path extracted is `f` and there is no argument. -/
theorem processComm_two_spaces_after_operator :
    whitespaceTokens "cat <  f\n".toList = ["cat".toList, "<".toList, "f".toList]
    ∧ processComm "cat <  f\n".toList
        = Except.ok
            { command := "cat".toList, arguments := ["f".toList],
              extendArgs := ["cat".toList, "f".toList],
              redirection := [(0, "< ".toList)], background := 0 }
    ∧ procRedirect "< ".toList = Except.ok (Direction.input, none)
    ∧ processComm "cat < f\n".toList
        = Except.ok
            { command := "cat".toList, arguments := [], extendArgs := ["cat".toList],
              redirection := [(0, "< f".toList)], background := 0 }
    ∧ procRedirect "< f".toList = Except.ok (Direction.input, some "f".toList) :=
  ⟨by decide, by rfl, by rfl, by rfl, by rfl⟩

/-- On a line made of words whose plain words fit `arguments` and whose redirections fit
`redirection`, for every redirection written as the operator character `<` (respectively `>`),
exactly one space and a path word `t`, `processComm` stores at the index given by the number of
earlier redirections the string from which `procRedirect` extracts an input (respectively
output) redirection with path exactly `t`, and the positional arguments are the plain words
before and after it, so `t` is not made an argument. -/
theorem processComm_redirection_path (lead trail n : Nat) (name path : List Char) (op : Char)
    (pre post : List (Nat × Item)) (hname : IsWord name)
    (hop : op = '<' ∨ op = '>') (hpath : IsWord path)
    (hpre : ∀ x ∈ pre, x.2.WellFormed) (hpost : ∀ x ∈ post, x.2.WellFormed)
    (hargs : (argWords (effectiveItems (pre ++ (n, Item.redirect op path) :: post)
      trail)).length ≤ MAXARG)
    (hredir : countRedirects (effectiveItems (pre ++ (n, Item.redirect op path) :: post)
      trail) ≤ 2) :
    ∃ c, processComm (renderLine lead name (pre ++ (n, Item.redirect op path) :: post) trail)
          = Except.ok c
      ∧ (countRedirects pre, op :: ' ' :: path) ∈ c.redirection
      ∧ procRedirect (op :: ' ' :: path) = Except.ok (directionOf op, some path)
      ∧ c.arguments = argWords pre ++ argWords (effectiveItems post trail) := by
  have hitems : ∀ x ∈ pre ++ (n, Item.redirect op path) :: post, x.2.WellFormed := by
    intro x hx
    rcases List.mem_append.mp hx with hx | hx
    · exact hpre x hx
    · rcases List.mem_cons.mp hx with hx | hx
      · rw [hx]; exact ⟨hop, hpath⟩
      · exact hpost x hx
  refine ⟨_, processComm_renderLine lead trail name _ hname (fun h => by simp at h) hitems
    hargs hredir, ?_, procRedirect_operator_path op path hop hpath, ?_⟩
  · rw [effectiveItems_redirect]
    have := mem_redirStores n op path (effectiveItems post trail) pre 0
    simpa using this
  · simp only [effectiveItems_redirect, argWords_append, argWords]

/-- The line `sort < in.txt > out.txt` records the output redirection with path `out.txt` at
index 1. -/
theorem processComm_redirection_path_witness :
    ∃ c, processComm "sort < in.txt > out.txt\n".toList = Except.ok c
      ∧ (1, "> out.txt".toList) ∈ c.redirection
      ∧ procRedirect "> out.txt".toList = Except.ok (Direction.output, some "out.txt".toList)
      ∧ c.arguments = [] :=
  processComm_redirection_path 0 0 0 "sort".toList "out.txt".toList '>'
    [(0, Item.redirect '<' "in.txt".toList)] [] (by decide) (by decide) (by decide)
    (by decide) (by decide) (by decide) (by decide)

/-- C5 counterexample: `sleep 5 & ` followed by the newline has three tokens and its final token
is exactly `&`, yet `processComm` leaves the background flag 0 and keeps `&` as a positional
argument and in the exec vector, because a space stands between `&` and the newline. -/
theorem processComm_marker_before_trailing_space :
    whitespaceTokens "sleep 5 & \n".toList = ["sleep".toList, "5".toList, "&".toList]
    ∧ processComm "sleep 5 & \n".toList
        = Except.ok
            { command := "sleep".toList, arguments := ["5".toList, "&".toList],
              extendArgs := ["sleep".toList, "5".toList, "&".toList],
              redirection := [], background := 0 } :=
  ⟨by decide, by rfl⟩

/-- C5 (amended): on a line made of words with at least one item after the command name, whose
plain words kept number at most `MAXARG` and whose redirections at most 2 (the sizes of the
arrays `arguments` and `redirection`), `processComm` sets the background flag to 1 if and only
if the last item is the plain word `&` and the newline follows it at once, and to 0 otherwise;
when the flag is set that `&` is in neither the arguments nor the exec vector, which hold the
plain words of the items before it; every other plain word `&` stays a positional argument. -/
theorem processComm_background_marker (lead trail : Nat) (name : List Char)
    (items : List (Nat × Item)) (hname : IsWord name) (hne : items ≠ [])
    (hitems : ∀ x ∈ items, x.2.WellFormed)
    (hargs : (argWords (effectiveItems items trail)).length ≤ MAXARG)
    (hredir : countRedirects (effectiveItems items trail) ≤ 2) :
    ∃ c, processComm (renderLine lead name items trail) = Except.ok c
      ∧ (c.background = 1 ↔ endsWithMarker items trail = true)
      ∧ (c.background = 0 ↔ endsWithMarker items trail = false)
      ∧ (endsWithMarker items trail = true →
          c.arguments = argWords items.dropLast
          ∧ c.extendArgs = name :: argWords items.dropLast)
      ∧ (endsWithMarker items trail = false →
          c.arguments = argWords items ∧ c.extendArgs = name :: argWords items)
      ∧ (∀ k, (k, Item.arg "&".toList) ∈ effectiveItems items trail →
          "&".toList ∈ c.arguments) := by
  refine ⟨_, processComm_renderLine lead trail name items hname (fun h => absurd h hne) hitems
    hargs hredir, ?_, ?_, ?_, ?_, ?_⟩
  · by_cases hm : endsWithMarker items trail = true <;> simp [hm]
  · by_cases hm : endsWithMarker items trail = true <;> simp [hm]
  · intro hm
    simp [effectiveItems, hm]
  · intro hm
    simp [effectiveItems, hm]
  · intro k hk
    exact mem_argWords_of_mem _ k _ hk

/-- C5 witness: `echo & x &` runs in the background; the first `&` stays an argument and the
closing one is taken off. -/
theorem processComm_background_marker_witness :
    ∃ c, processComm "echo & x &\n".toList = Except.ok c
      ∧ c.background = 1
      ∧ c.arguments = ["&".toList, "x".toList]
      ∧ c.extendArgs = ["echo".toList, "&".toList, "x".toList] := by
  obtain ⟨c, hc, hbg, _, hset, _, _⟩ := processComm_background_marker 0 0 "echo".toList
    [(0, Item.arg "&".toList), (0, Item.arg "x".toList), (0, Item.arg "&".toList)]
    (by decide) (by decide) (by decide) (by decide) (by decide)
  exact ⟨c, hc, hbg.mpr (by decide), (hset (by decide)).1, (hset (by decide)).2⟩

/-- C6: the line `cat < a < b < c` makes `processComm` store three redirections: the first two
at the indices 0 and 1, as on the line `cat < a < b`, and the third, the string `< c`, at the
index 2, outside the two elements of `redirection`. -/
theorem processComm_third_redirection_store :
    processComm "cat < a < b\n".toList
      = Except.ok
          { command := "cat".toList, arguments := [], extendArgs := ["cat".toList],
            redirection := [(0, "< a".toList), (1, "< b".toList)],
            background := 0 }
    ∧ processComm "cat < a < b < c\n".toList
      = Except.error (Fault.redirectionStore 2 "< c".toList) :=
  ⟨by rfl, by rfl⟩

/-! ### The fuel of the loops is enough -/

theorem varExpansionLoop_fuel (P cl : List Char) (extra : Nat) :
    varExpansionLoop P (cl.length + 1 + extra) cl [] 1 0
      = varExpansionLoop P (cl.length + 1) cl [] 1 0 := by
  rw [varExpansionLoop_eq P _ cl [] 0 (by omega) (by decide),
    varExpansionLoop_eq P _ cl [] 0 (by omega) (by decide)]

theorem markRedirectLoop_fuel (cl : List Char) (extra : Nat) :
    markRedirectLoop (cl.length + extra) cl 1 0 = markRedirectLoop cl.length cl 1 0 := by
  rw [markRedirectLoop_eq _ cl 0 (by omega), markRedirectLoop_eq _ cl 0 (by omega)]

theorem promptUserLoop_fuel (cl : List Char) :
    ∀ (fuel extra i : Nat), cl.length ≤ fuel + i →
      promptUserLoop cl (fuel + extra) i = promptUserLoop cl fuel i := by
  intro fuel
  induction fuel with
  | zero =>
    intro extra i h
    cases extra with
    | zero => rfl
    | succ e =>
      have hi : ¬ (i < cl.length) := by omega
      simp only [Nat.zero_add, promptUserLoop, if_neg hi]
  | succ fuel ih =>
    intro extra i h
    have e : fuel + 1 + extra = (fuel + extra) + 1 := by omega
    rw [e]
    unfold promptUserLoop
    by_cases hi : i < cl.length
    · rw [if_pos hi, if_pos hi, ih extra (i + 1) (by omega)]
    · rw [if_neg hi, if_neg hi]

theorem dropWhile_head_false {p : Char → Bool} :
    ∀ (l : List Char) (c : Char) (r : List Char), l.dropWhile p = c :: r → p c = false := by
  intro l
  induction l with
  | nil => intro c r h; simp at h
  | cons a rest ih =>
    intro c r h
    by_cases ha : p a = true
    · rw [List.dropWhile_cons_of_pos ha] at h
      exact ih c r h
    · rw [List.dropWhile_cons_of_neg ha] at h
      injection h with h1 h2
      rw [← h1]
      simpa using ha

theorem length_dropWhile_le' (p : Char → Bool) (l : List Char) :
    (l.dropWhile p).length ≤ l.length := by
  induction l with
  | nil => simp
  | cons a rest ih =>
    by_cases ha : p a = true
    · rw [List.dropWhile_cons_of_pos ha]
      simp only [List.length_cons]
      omega
    · rw [List.dropWhile_cons_of_neg ha]

theorem strtok_r_rest_length (delim s tok rest : List Char)
    (h : strtok_r delim s = some (tok, rest)) : rest.length < s.length := by
  unfold strtok_r at h
  split at h
  · cases h
  · rename_i c r hdrop
    injection h with h
    injection h with h1 h2
    have hc : (decide (c ∈ delim)) = false := dropWhile_head_false s c r hdrop
    have hlen : (c :: r).length ≤ s.length := by
      rw [← hdrop]; exact length_dropWhile_le' _ s
    have hq : (c :: r).dropWhile (fun d => !decide (d ∈ delim))
        = r.dropWhile (fun d => !decide (d ∈ delim)) := by
      rw [List.dropWhile_cons_of_pos (by simp [hc])]
    rw [← h2, hq, List.length_tail]
    have := length_dropWhile_le' (fun d => !decide (d ∈ delim)) r
    simp only [List.length_cons] at hlen
    omega

theorem tokenLoop_fuel_aux (room : Bool) :
    ∀ (n : Nat) (s : List Char) (st : ParseState) (f1 f2 : Nat),
      s.length ≤ n → s.length < f1 → s.length < f2 →
      tokenLoop room f1 (strtok_r delimComm s) st
        = tokenLoop room f2 (strtok_r delimComm s) st := by
  intro n
  induction n with
  | zero =>
    intro s st f1 f2 hn h1 h2
    have hs : s = [] := List.length_eq_zero.mp (by omega)
    subst hs
    have hnone : strtok_r delimComm [] = none := rfl
    rw [hnone]
    cases f1 with
    | zero => simp at h1
    | succ a =>
      cases f2 with
      | zero => simp at h2
      | succ b => simp [tokenLoop]
  | succ n ih =>
    intro s st f1 f2 hn h1 h2
    cases f1 with
    | zero => omega
    | succ a =>
      cases f2 with
      | zero => omega
      | succ b =>
        cases htok : strtok_r delimComm s with
        | none => simp [tokenLoop]
        | some tr =>
          obtain ⟨tok, rest⟩ := tr
          have hrest := strtok_r_rest_length _ _ _ _ htok
          simp only [tokenLoop]
          split_ifs
          · rfl
          · rfl
          · exact ih rest _ a b (by omega) (by omega) (by omega)
          · rfl
          · rfl
          · exact ih rest _ a b (by omega) (by omega) (by omega)

/-- The number of iterations that `processComm` allows its token loop is enough: more fuel gives
the same result. -/
theorem tokenLoop_fuel (room : Bool) (s : List Char) (st : ParseState) (extra : Nat) :
    tokenLoop room (s.length + 1 + extra) (strtok_r delimComm s) st
      = tokenLoop room (s.length + 1) (strtok_r delimComm s) st :=
  tokenLoop_fuel_aux room s.length s st _ _ (Nat.le_refl _) (by omega) (by omega)

/-! ### `exitCheck` and the end of `main` -/

theorem exitCheck_eq : ∀ L : List Int, exitCheck L = (livePids L, 0) := by
  intro L
  induction L with
  | nil => rfl
  | cons x rest ih =>
    by_cases hx : x = 0
    · subst hx
      simp [exitCheck, livePids] at ih ⊢
      exact ih
    · have hl : livePids (x :: rest) = x :: livePids rest := by simp [livePids, hx]
      rw [exitCheck, if_pos hx, ih, hl]

/-- C11: for every job list, a line on which `promptUser` returns 1 and whose command name is
exactly `exit`, whatever else the command holds, makes `exitCheck` send `SIGKILL` once to each
slot with a non-zero pid, in list order, and to no cleared slot, and return 0; the loop of `main`
then makes no further iteration, whatever lines follow, and `main` returns `EXIT_SUCCESS`. -/
theorem exitCheck_kills_and_stops (m : WaitMacros) (smallshPid : Int) (launch : Nat → LaunchEnv)
    (line expanded : List Char) (rest : List (List Char)) (n : Nat) (st : MainState)
    (c : commandLine)
    (hrun : st.runSmallsh = -5) (hprompt : promptUser line = 1)
    (hv : varExpansion smallshPid line = Except.ok expanded)
    (hc : processComm expanded = Except.ok c)
    (hexit : c.command = "exit".toList) :
    exitCheck st.head = (livePids st.head, 0)
    ∧ (∀ pid ∈ (exitCheck st.head).1, pid ≠ 0)
    ∧ mainLoop m smallshPid launch (line :: rest) n st
        = (MainEvent.prompt :: (livePids st.head).map MainEvent.kill,
           MainOutcome.returned EXIT_SUCCESS)
    ∧ EXIT_SUCCESS = 0 := by
  refine ⟨exitCheck_eq _, ?_, ?_, rfl⟩
  · intro pid hpid
    rw [exitCheck_eq] at hpid
    simpa [livePids] using (List.mem_filter.mp hpid).2
  · unfold mainLoop
    rw [if_pos hrun, hv]
    simp only []
    rw [if_pos hprompt, hc]
    simp only [hexit, if_true, exitCheck_eq]
    have hstop : ∀ k, mainLoop m smallshPid launch rest k
        { st with runSmallsh := 0 } = ([], MainOutcome.returned EXIT_SUCCESS) := by
      intro k
      cases rest with
      | nil => simp [mainLoop]
      | cons l ls => simp [mainLoop]
    rw [hstop]
    simp

/-- C11 witness: with the job list holding 5, a cleared slot and 3, the line `exit now` followed
by further lines sends `SIGKILL` to 5 and to 3 and ends `main` with success after one prompt. -/
theorem exitCheck_kills_and_stops_witness :
    mainLoop linuxWaitMacros 4242 (exampleLaunch 0) ["exit now\n".toList, "ls\n".toList] 0
        { runSmallsh := -5, exitStatus := 0, head := [5, 0, 3] }
      = ([MainEvent.prompt, MainEvent.kill 5, MainEvent.kill 3],
         MainOutcome.returned 0) :=
  (exitCheck_kills_and_stops linuxWaitMacros 4242 (exampleLaunch 0) "exit now\n".toList
    "exit now\n".toList
    ["ls\n".toList] 0 { runSmallsh := -5, exitStatus := 0, head := [5, 0, 3] }
    { command := "exit".toList, arguments := ["now".toList],
      extendArgs := ["exit".toList, "now".toList], redirection := [], background := 0 }
    rfl (by decide) (by rfl) (by rfl) rfl).2.2.1

/-! ### `checkStatus` -/

theorem checkStatus_exited (m : WaitMacros) (w : Int) (h : m.WIFEXITED w ≠ 0) :
    checkStatus m w = "exit value ".toList ++ fmtInt (m.WEXITSTATUS w) ++ "\n".toList := by
  unfold checkStatus
  rw [if_pos h]

theorem checkStatus_signaled (m : WaitMacros) (w : Int) (he : m.WIFEXITED w = 0)
    (hs : m.WIFSIGNALED w ≠ 0) :
    checkStatus m w
      = "terminated by signal ".toList ++ fmtInt (m.WTERMSIG w) ++ "\n".toList := by
  unfold checkStatus
  rw [if_neg (by simp [he]), if_pos hs]

theorem linux_exit_status (N : Int) (h0 : 0 ≤ N) (h1 : N ≤ 255) :
    linuxWaitMacros.WIFEXITED (N * 256) = 1 ∧ linuxWaitMacros.WEXITSTATUS (N * 256) = N := by
  have hm : N * 256 % 128 = 0 := by omega
  have hd : N * 256 / 256 % 256 = N := by omega
  simp only [linuxWaitMacros, hm, hd, if_true, and_self]

theorem linux_signal_status (S core : Int) (h0 : 1 ≤ S) (h1 : S ≤ 126)
    (hc : core = 0 ∨ core = 1) :
    linuxWaitMacros.WIFEXITED (S + 128 * core) = 0
    ∧ linuxWaitMacros.WIFSIGNALED (S + 128 * core) = 1
    ∧ linuxWaitMacros.WTERMSIG (S + 128 * core) = S := by
  have hm : (S + 128 * core) % 128 = S := by
    rcases hc with hc | hc <;> subst hc <;> omega
  have hne : ¬ (S = 0) := by omega
  simp only [linuxWaitMacros, hm, hne, if_false, h0, h1, and_self, if_true]

theorem linux_signaled_not_exited (w : Int) (h : linuxWaitMacros.WIFSIGNALED w ≠ 0) :
    linuxWaitMacros.WIFEXITED w = 0 := by
  simp only [linuxWaitMacros] at h ⊢
  by_cases hr : 1 ≤ w % 128 ∧ w % 128 ≤ 126
  · have : ¬ (w % 128 = 0) := by omega
    rw [if_neg this]
  · rw [if_neg hr] at h
    exact absurd rfl h

/-- C12: `checkStatus` prints `exit value N` when the wait-status macros tell a normal exit with
code `N`, and `terminated by signal N` when they tell a termination by signal `N`; under the
Linux encoding this holds for the status of every exit code 0..255 and of every signal 1..126
with or without the core flag; the initial `exitStatus` 0 of `main` makes `status` print
`exit value 0`, and after a foreground child that exited with code 3 it prints `exit value 3`. -/
theorem checkStatus_decodes (m : WaitMacros) (w N S core : Int) :
    (m.WIFEXITED w ≠ 0 →
      checkStatus m w = "exit value ".toList ++ fmtInt (m.WEXITSTATUS w) ++ "\n".toList)
    ∧ (m.WIFEXITED w = 0 → m.WIFSIGNALED w ≠ 0 →
      checkStatus m w
        = "terminated by signal ".toList ++ fmtInt (m.WTERMSIG w) ++ "\n".toList)
    ∧ (linuxWaitMacros.WIFSIGNALED w ≠ 0 →
      checkStatus linuxWaitMacros w
        = "terminated by signal ".toList ++ fmtInt (linuxWaitMacros.WTERMSIG w) ++ "\n".toList)
    ∧ (0 ≤ N → N ≤ 255 →
      checkStatus linuxWaitMacros (N * 256)
        = "exit value ".toList ++ fmtInt N ++ "\n".toList)
    ∧ (1 ≤ S → S ≤ 126 → core = 0 ∨ core = 1 →
      checkStatus linuxWaitMacros (S + 128 * core)
        = "terminated by signal ".toList ++ fmtInt S ++ "\n".toList)
    ∧ mainInit.exitStatus = 0
    ∧ checkStatus linuxWaitMacros 0 = "exit value 0\n".toList
    ∧ checkStatus linuxWaitMacros (3 * 256) = "exit value 3\n".toList
    ∧ main linuxWaitMacros 4242 (exampleLaunch 0) ["status\n".toList]
        = ([MainEvent.prompt, MainEvent.print "exit value 0\n".toList],
           MainOutcome.awaitingInput)
    ∧ main linuxWaitMacros 4242 (exampleLaunch (3 * 256)) ["ls\n".toList, "status\n".toList]
        = ([MainEvent.prompt, MainEvent.launch [Event.waitBlocking 9],
            MainEvent.prompt, MainEvent.print "exit value 3\n".toList],
           MainOutcome.awaitingInput) := by
  refine ⟨checkStatus_exited m w, checkStatus_signaled m w, ?_, ?_, ?_, rfl, by decide,
    by decide, by rfl, by rfl⟩
  · intro h
    exact checkStatus_signaled _ w (linux_signaled_not_exited w h) h
  · intro h0 h1
    have := linux_exit_status N h0 h1
    rw [checkStatus_exited _ _ (by rw [this.1]; decide), this.2]
  · intro h0 h1 hc
    have := linux_signal_status S core h0 h1 hc
    rw [checkStatus_signaled _ _ this.1 (by rw [this.2.1]; decide), this.2.2]

/-- C12 witness: under the Linux encoding the status of a child killed by signal 15 prints
`terminated by signal 15`, and that of a child that exited with code 3 prints `exit value 3`. -/
theorem checkStatus_decodes_witness :
    checkStatus linuxWaitMacros 15 = "terminated by signal 15\n".toList
    ∧ checkStatus linuxWaitMacros 768 = "exit value 3\n".toList :=
  ⟨(checkStatus_decodes linuxWaitMacros 15 3 15 0).2.2.2.2.1 (by decide) (by decide)
      (Or.inl rfl),
   (checkStatus_decodes linuxWaitMacros 768 3 15 0).2.2.2.1 (by decide) (by decide)⟩

/-! ### The child side of `otherCommand` -/

/-- Whatever the mode, the child of a command with the background flag 1 calls `bgRedirect` and
does not call `changeSIGINT`, and the child of a command with the flag 0 does the opposite. -/
theorem otherCommandChild_by_flag (fgOnly : Int) (c : commandLine) :
    (c.background = 1 →
      ChildStep.bgRedirect ∈ otherCommandChild fgOnly c
      ∧ ChildStep.changeSIGINT ∉ otherCommandChild fgOnly c)
    ∧ (c.background = 0 →
      ChildStep.changeSIGINT ∈ otherCommandChild fgOnly c
      ∧ ChildStep.bgRedirect ∉ otherCommandChild fgOnly c) := by
  constructor
  · intro h
    unfold otherCommandChild
    rw [h]
    constructor
    · simp
    · simp only [List.mem_append, not_or]
      refine ⟨⟨⟨⟨⟨by simp, ?_⟩, by simp⟩, ?_⟩, ?_⟩, by simp⟩
      · split_ifs <;> simp
      · split_ifs <;> simp
      · split_ifs <;> simp
  · intro h
    unfold otherCommandChild
    rw [h]
    constructor
    · simp
    · simp only [List.mem_append, not_or]
      refine ⟨⟨⟨⟨⟨by simp, ?_⟩, by simp⟩, ?_⟩, ?_⟩, by simp⟩
      · split_ifs <;> simp
      · split_ifs <;> simp
      · split_ifs <;> simp

/-- C13: with foreground-only mode on, the command of `sleep 5 &` is waited for in the
foreground by the parent, yet its child calls `bgRedirect` (null-device binding) and does not
call `changeSIGINT`, whereas the child of `sleep 5` calls `changeSIGINT` and not `bgRedirect`:
the setup steps differ with the background flag. -/
theorem otherCommandChild_mode_on_differs :
    processComm "sleep 5 &\n".toList
      = Except.ok
          { command := "sleep".toList, arguments := ["5".toList],
            extendArgs := ["sleep".toList, "5".toList], redirection := [], background := 1 }
    ∧ processComm "sleep 5\n".toList
      = Except.ok
          { command := "sleep".toList, arguments := ["5".toList],
            extendArgs := ["sleep".toList, "5".toList], redirection := [], background := 0 }
    ∧ (otherCommandParent linuxWaitMacros (exampleEnv 1) 1 9 [0]).events
      = [Event.waitBlocking 9, Event.restoreMask]
    ∧ otherCommandChild 1
        { command := "sleep".toList, arguments := ["5".toList],
          extendArgs := ["sleep".toList, "5".toList], redirection := [], background := 1 }
      = [ChildStep.bgRedirect, ChildStep.execvp "sleep".toList ["sleep".toList, "5".toList]]
    ∧ otherCommandChild 1
        { command := "sleep".toList, arguments := ["5".toList],
          extendArgs := ["sleep".toList, "5".toList], redirection := [], background := 0 }
      = [ChildStep.changeSIGINT,
         ChildStep.execvp "sleep".toList ["sleep".toList, "5".toList]] :=
  ⟨by rfl, by rfl, by decide, by decide, by decide⟩

/-! ### The interrupt announcement of the parent -/

/-- For a command with the background flag 0 the parent prints the announcement after its
blocking wait exactly when the status stored by that wait is the integer 2. -/
theorem otherCommandParent_foreground_events (m : WaitMacros) (env : ParentEnv)
    (spawnpid : Int) (bgList : List Int) :
    (otherCommandParent m env 0 spawnpid bgList).events
      = (scanBgList m env.noHang bgList 0 env.bgChildStatusInit).events
        ++ [Event.waitBlocking spawnpid]
        ++ (if waitpidStatus env.childStatusInit env.blocking = 2 then
              [Event.print "terminated by signal 2\n".toList]
            else [])
        ++ (if env.fgOnlyAt771 = 1 then [Event.restoreMask] else []) := by
  have hnot : ¬ ((0 : Int) = 1 ∧ env.fgOnlyAt739 = 0) := fun h => absurd h.1 (by decide)
  have hyes : (0 : Int) = 0 ∨ env.fgOnlyAt759 = 1 := Or.inl rfl
  unfold otherCommandParent foregroundBranch backgroundBranch
  rw [if_neg hnot, if_pos hyes]
  by_cases h2 : waitpidStatus env.childStatusInit env.blocking = 2
  · rw [if_pos h2, if_pos h2, h2]
    rfl
  · rw [if_neg h2, if_neg h2]

/-- Under the Linux encoding the test `childStatus == 2` agrees with the decoding on the status of
every exit code and of every signal without the core flag. -/
theorem raw_status_test_agrees (w N : Int)
    (h : (w = N * 256 ∧ 0 ≤ N ∧ N ≤ 255) ∨ (1 ≤ w ∧ w ≤ 126)) :
    w = 2 ↔ (linuxWaitMacros.WIFSIGNALED w ≠ 0 ∧ linuxWaitMacros.WTERMSIG w = 2) := by
  simp only [linuxWaitMacros]
  rcases h with ⟨hw, h0, h1⟩ | ⟨h0, h1⟩
  · have hm : w % 128 = 0 := by omega
    rw [hm]
    constructor
    · intro h2; omega
    · intro h2; exact absurd h2.2 (by decide)
  · have hm : w % 128 = w := by omega
    rw [hm]
    constructor
    · intro h2
      subst h2
      decide
    · intro h2; exact h2.2

/-- The test of line 764 compares the raw status with 2.  The integer 130 decodes, under the
Linux encoding, as a termination by signal 2 with the core flag, and the parent would print no
announcement for it; no end of a child stores it, as the interrupt signal writes no core
file. -/
theorem otherCommandParent_raw_status_test :
    linuxWaitMacros.WIFSIGNALED 130 = 1
    ∧ linuxWaitMacros.WTERMSIG 130 = 2
    ∧ checkStatus linuxWaitMacros 130 = "terminated by signal 2\n".toList
    ∧ (otherCommandParent linuxWaitMacros (exampleLaunch 130 0).parent 0 9 [0]).events
      = [Event.waitBlocking 9]
    ∧ (otherCommandParent linuxWaitMacros (exampleLaunch 2 0).parent 0 9 [0]).events
      = [Event.waitBlocking 9, Event.print "terminated by signal 2\n".toList]
    ∧ (∀ e : ChildEnd, e.Possible → waitStatus e ≠ 130) := by
  refine ⟨by decide, by decide, by decide, by decide, by decide, ?_⟩
  intro e he
  cases e with
  | exited code =>
    obtain ⟨h0, h1⟩ := he
    simp only [waitStatus]
    omega
  | killed signal core =>
    obtain ⟨h0, h1, hc⟩ := he
    cases core with
    | false =>
      simp only [waitStatus]
      intro h
      simp at h
      omega
    | true =>
      have hmem := hc rfl
      simp only [waitStatus]
      intro h
      simp [coreDumpSignals] at hmem h
      omega

/-- On the status of every possible end of a child the test `childStatus == 2` agrees with the
decoding by `WIFSIGNALED` and `WTERMSIG`, and both hold exactly for a child killed by the signal
2. -/
theorem raw_status_test_possible (e : ChildEnd) (he : e.Possible) :
    (waitStatus e = 2 ↔
      (linuxWaitMacros.WIFSIGNALED (waitStatus e) ≠ 0
        ∧ linuxWaitMacros.WTERMSIG (waitStatus e) = 2))
    ∧ (waitStatus e = 2 ↔ e = ChildEnd.killed 2 false) := by
  cases e with
  | exited code =>
    obtain ⟨h0, h1⟩ := he
    refine ⟨raw_status_test_agrees _ code (Or.inl ⟨rfl, h0, h1⟩), ?_⟩
    simp only [waitStatus]
    constructor
    · intro h; omega
    · intro h; cases h
  | killed signal core =>
    obtain ⟨h0, h1, hc⟩ := he
    cases core with
    | false =>
      have hw : waitStatus (ChildEnd.killed signal false) = signal := by simp [waitStatus]
      rw [hw]
      refine ⟨raw_status_test_agrees _ 0 (Or.inr ⟨h0, by omega⟩), ?_⟩
      constructor
      · intro h; rw [h]
      · intro h; injection h
    | true =>
      have hmem := hc rfl
      have hw : waitStatus (ChildEnd.killed signal true) = signal + 128 := by simp [waitStatus]
      have hne : signal ≠ 2 := by
        intro h
        rw [h] at hmem
        exact absurd hmem (by decide)
      rw [hw]
      refine ⟨?_, ?_⟩
      · simp only [linuxWaitMacros]
        have hm : (signal + 128) % 128 = signal := by omega
        rw [hm]
        constructor
        · intro h; omega
        · intro h; exact absurd h.2 hne
      · constructor
        · intro h; omega
        · intro h
          injection h with h2 h3
          cases h3

/-- C14: for every wait status `w` that the blocking wait of line 760 stores for the end of the
child (an exit code from 0 to 255, or a signal from 1 to 64, with the core flag only for a
signal that writes a core file), the events of the parent from that wait on are the blocking
wait, then the text `terminated by signal 2` exactly when `w` decoded with `WIFSIGNALED` and
`WTERMSIG` is a termination by signal 2, then the unblocking of the stop signal when the mode
is on; so the announcement is among the events after the wait if and only if `w` decodes so,
which is the case if and only if the child was killed by the signal 2; and `w` is the status
returned. -/
theorem otherCommandParent_interrupt_announcement (env : ParentEnv)
    (background spawnpid : Int) (bgList : List Int) (e : ChildEnd)
    (he : e.Possible) (hw : env.blocking = WaitOutcome.reaped (waitStatus e))
    (hfg : background = 0 ∨ env.fgOnlyAt759 = 1) :
    (otherCommandParent linuxWaitMacros env background spawnpid bgList).events
      = (backgroundBranch linuxWaitMacros env background spawnpid
          (scanBgList linuxWaitMacros env.noHang bgList 0 env.bgChildStatusInit)).events
        ++ [Event.waitBlocking spawnpid]
        ++ (if linuxWaitMacros.WIFSIGNALED (waitStatus e) ≠ 0
              ∧ linuxWaitMacros.WTERMSIG (waitStatus e) = 2 then
              [Event.print "terminated by signal 2\n".toList]
            else [])
        ++ (if env.fgOnlyAt771 = 1 then [Event.restoreMask] else [])
    ∧ (Event.print "terminated by signal 2\n".toList ∈
          (otherCommandParent linuxWaitMacros env background spawnpid bgList).events.drop
            ((backgroundBranch linuxWaitMacros env background spawnpid
              (scanBgList linuxWaitMacros env.noHang bgList 0
                env.bgChildStatusInit)).events.length + 1)
        ↔ (linuxWaitMacros.WIFSIGNALED (waitStatus e) ≠ 0
            ∧ linuxWaitMacros.WTERMSIG (waitStatus e) = 2))
    ∧ ((linuxWaitMacros.WIFSIGNALED (waitStatus e) ≠ 0
          ∧ linuxWaitMacros.WTERMSIG (waitStatus e) = 2) ↔ e = ChildEnd.killed 2 false)
    ∧ (otherCommandParent linuxWaitMacros env background spawnpid bgList).childStatus
      = waitStatus e := by
  have hagree := raw_status_test_possible e he
  have hst : waitpidStatus env.childStatusInit env.blocking = waitStatus e := by
    rw [hw]; rfl
  have hev : (otherCommandParent linuxWaitMacros env background spawnpid bgList).events
      = (backgroundBranch linuxWaitMacros env background spawnpid
          (scanBgList linuxWaitMacros env.noHang bgList 0 env.bgChildStatusInit)).events
        ++ [Event.waitBlocking spawnpid]
        ++ (if linuxWaitMacros.WIFSIGNALED (waitStatus e) ≠ 0
              ∧ linuxWaitMacros.WTERMSIG (waitStatus e) = 2 then
              [Event.print "terminated by signal 2\n".toList]
            else [])
        ++ (if env.fgOnlyAt771 = 1 then [Event.restoreMask] else []) := by
    unfold otherCommandParent foregroundBranch
    rw [if_pos hfg, hst]
    by_cases h2 : waitStatus e = 2
    · rw [if_pos h2, if_pos (hagree.1.mp h2), h2]
      rfl
    · rw [if_neg h2, if_neg (fun h => h2 (hagree.1.mpr h))]
  refine ⟨hev, ?_, ?_, ?_⟩
  · rw [hev, List.append_assoc, List.append_assoc, List.drop_append_eq_append_drop]
    have hd : List.drop
        ((backgroundBranch linuxWaitMacros env background spawnpid
          (scanBgList linuxWaitMacros env.noHang bgList 0
            env.bgChildStatusInit)).events.length + 1)
        (backgroundBranch linuxWaitMacros env background spawnpid
          (scanBgList linuxWaitMacros env.noHang bgList 0 env.bgChildStatusInit)).events = [] :=
      List.drop_eq_nil_of_le (by omega)
    rw [hd]
    simp only [List.nil_append, Nat.add_sub_cancel_left, List.singleton_append, List.drop_succ_cons,
      List.drop_zero]
    by_cases hdec : linuxWaitMacros.WIFSIGNALED (waitStatus e) ≠ 0
        ∧ linuxWaitMacros.WTERMSIG (waitStatus e) = 2
    · rw [if_pos hdec]
      simp [hdec]
    · rw [if_neg hdec]
      constructor
      · intro hmem
        simp only [List.nil_append] at hmem
        split_ifs at hmem <;> simp at hmem
      · intro h; exact absurd h hdec
  · rw [← hagree.1]; exact hagree.2
  · unfold otherCommandParent foregroundBranch
    rw [if_pos hfg, hst]

/-- C14 witness: a child killed by the signal 2 is announced at once; the parent of the child 9
prints `terminated by signal 2` after its blocking wait. -/
theorem otherCommandParent_interrupt_announcement_witness :
    (otherCommandParent linuxWaitMacros (exampleLaunch 2 0).parent 0 9 [0]).events
      = [Event.waitBlocking 9, Event.print "terminated by signal 2\n".toList] :=
  (otherCommandParent_interrupt_announcement (exampleLaunch 2 0).parent 0 9 [0]
    (ChildEnd.killed 2 false) (by decide) rfl (Or.inl rfl)).1

/-! ### Lines on which `processComm` leaves defined behaviour -/

/-- C15: the lines `&`, ` &`, `,` and the apostrophe alone, each ended by the newline, are
newline-terminated lines of at most 2047 characters on which `promptUser` returns 1; on the
first `processComm` reads the index `strlen - 3`, which is below 0, and on the others the first
`strtok_r` returns `NULL`, so no command is produced and `main` stops in undefined behaviour. -/
theorem processComm_not_total :
    ("&\n".toList.length ≤ 2047 ∧ "&\n".toList.getLast? = some '\n'
      ∧ promptUser "&\n".toList = 1
      ∧ varExpansion 4242 "&\n".toList = Except.ok "&\n".toList
      ∧ processComm "&\n".toList = Except.error Fault.indexBeforeLine)
    ∧ (" &\n".toList.length ≤ 2047 ∧ " &\n".toList.getLast? = some '\n'
      ∧ promptUser " &\n".toList = 1
      ∧ varExpansion 4242 " &\n".toList = Except.ok " &\n".toList
      ∧ processComm " &\n".toList = Except.error Fault.nullToken)
    ∧ (",\n".toList.length ≤ 2047 ∧ ",\n".toList.getLast? = some '\n'
      ∧ promptUser ",\n".toList = 1
      ∧ varExpansion 4242 ",\n".toList = Except.ok ",\n".toList
      ∧ processComm ",\n".toList = Except.error Fault.nullToken)
    ∧ ("'\n".toList.length ≤ 2047 ∧ "'\n".toList.getLast? = some '\n'
      ∧ promptUser "'\n".toList = 1
      ∧ varExpansion 4242 "'\n".toList = Except.ok "'\n".toList
      ∧ processComm "'\n".toList = Except.error Fault.nullToken)
    ∧ main linuxWaitMacros 4242 (exampleLaunch 0) [",\n".toList, "ls\n".toList]
      = ([MainEvent.prompt], MainOutcome.fault Fault.nullToken) :=
  ⟨⟨by decide, by decide, by decide, by rfl, by rfl⟩,
   ⟨by decide, by decide, by decide, by rfl, by rfl⟩,
   ⟨by decide, by decide, by decide, by rfl, by rfl⟩,
   ⟨by decide, by decide, by decide, by rfl, by rfl⟩,
   by rfl⟩

end Smallsh
